import Mathlib

/-!
Verification of the UNO engine and tournament orchestrator
(`src/uno/engine/engine.py`, `simulator.py`, `tournament.py`).

The card, deck and player primitives (`card.py`, `deck.py`,
`player/player.py`) are imported by the engine but are not part of the
sources; they are modelled from the specification where indicated.
Randomness (`random.shuffle`, `random.choice`, `random.random`) is
threaded through as explicit oracle parameters.
-/

namespace Uno

/-- Modelled from the spec: card colors (`card.py` is absent from the
sources); `Card: color ∈ RED, BLUE, GREEN, YELLOW, WILD`. -/
inductive CardColor
  | red
  | blue
  | green
  | yellow
  | wild
deriving DecidableEq, Repr

/-- Modelled from the spec: card labels (`card.py` is absent from the
sources); `label ∈ 0..9, SKIP, REVERSE, DRAW_TWO, WILD, WILD_DRAW_FOUR`. -/
inductive CardLabel
  | num (n : Nat)
  | skip
  | reverse
  | drawTwo
  | wildCard
  | wildDrawFour
deriving DecidableEq, Repr

/-- Modelled from the spec: an immutable card value (`card.py` is absent
from the sources). -/
structure Card where
  color : CardColor
  label : CardLabel
deriving DecidableEq, Repr

/-- Modelled from the spec: the legality predicate of the Card Model
("can this card be played on the current top card and active color",
`Card.can_play_on` in `card.py`, absent from the sources): a wild card is
always playable, otherwise the card must match the active color or the
label of the top card. -/
def Card.can_play_on (c top : Card) (activeColor : Option CardColor) : Bool :=
  c.color = CardColor.wild || some c.color = activeColor || c.label = top.label

/-- Modelled from the spec: card point values used by forced scoring
("number cards = face value, action cards = fixed higher value, wilds =
highest value", `player.calculate_hand_score` lives in the absent
`player.py`); the standard UNO values 20 and 50 realize the fixed
action/wild values. -/
def Card.point_value (c : Card) : Nat :=
  match c.label with
  | .num n => n
  | .skip => 20
  | .reverse => 20
  | .drawTwo => 20
  | .wildCard => 50
  | .wildDrawFour => 50

/-- Modelled from the spec: `player.calculate_hand_score` — the sum of
the point values of the cards remaining in a hand. -/
def calculate_hand_score (hand : List Card) : Nat :=
  (hand.map Card.point_value).sum

/-- `GameState` enum of `engine.py`. -/
inductive GameState
  | waitingForPlayers
  | dealingCards
  | inProgress
  | roundOver
  | gameOver
deriving DecidableEq, Repr

/-- The mutable state of `UnoGameEngine` (`engine.py`).  The deck is the
ordered draw pile (drawn from the head), `discard` has its top card last,
`hands` holds each seated player's hand (the `Player` objects of the
absent `player.py` are modelled by their hands), `clockwise` encodes
`GameDirection`.  `max_turns` is the constant 1000. -/
structure EngineState where
  deck : List Card
  discard : List Card
  hands : List (List Card)
  currentPlayerIndex : Nat
  clockwise : Bool
  currentColor : Option CardColor
  gameState : GameState
  turnCount : Nat
  endlessReshuffle : Bool
deriving DecidableEq, Repr

/-- `self.max_turns = 1000` in `UnoGameEngine.__init__`. -/
def max_turns : Nat := 1000

/-- The hand of the player seated at index `p`. -/
def EngineState.hand (st : EngineState) (p : Nat) : List Card :=
  st.hands.getD p []

/-- Replace the hand of the player seated at index `p`. -/
def EngineState.setHand (st : EngineState) (p : Nat) (h : List Card) : EngineState :=
  { st with hands := st.hands.set p h }

/-- Total number of cards across deck, hands and discard pile
(the quantity of the card-conservation invariant). -/
def totalCards (st : EngineState) : Nat :=
  st.deck.length + (st.hands.map List.length).sum + st.discard.length

/-- `UnoGameEngine.next_turn`: advance `current_player_index` by one seat
in the current direction, modulo the number of players (Python's `%` on a
possibly negative value is the non-negative remainder, matched here by
adding `n - 1`). -/
def next_turn (st : EngineState) : EngineState :=
  { st with currentPlayerIndex :=
      (if st.clockwise then st.currentPlayerIndex + 1
       else st.currentPlayerIndex + (st.hands.length - 1)) % st.hands.length }

/-- `UnoGameEngine.reverse_direction`. -/
def reverse_direction (st : EngineState) : EngineState :=
  { st with clockwise := !st.clockwise }

/-- `UnoGameEngine._reshuffle_discard_pile`: refuse when the discard pile
has at most one card; otherwise keep the top card as the whole discard
pile and shuffle the remaining discard cards into the deck.
`random.shuffle` is the oracle parameter `shuffle`. -/
def reshuffle_discard_pile (shuffle : List Card → List Card) (st : EngineState) :
    Except String EngineState :=
  if st.discard.length ≤ 1 then
    .error "Not enough cards to reshuffle"
  else
    match st.discard.getLast? with
    | none => .error "Not enough cards to reshuffle"
    | some top =>
        .ok { st with
                deck := shuffle (st.deck ++ st.discard.dropLast),
                discard := [top] }

/-- `UnoGameEngine.check_winner`: the first player with an empty hand
(`player.has_won()`), if any. -/
def check_winner (st : EngineState) : Option Nat :=
  st.hands.findIdx? List.isEmpty

/-- The state effect of `UnoGameEngine._end_game_with_scores`: the game
state becomes `ROUND_OVER`.  The hand scores and the tie-broken winner
computed inside the Python function are bound to local variables that are
never stored or returned; that dead computation is modelled separately as
`end_game_scored_winner`. -/
def end_game_with_scores (st : EngineState) : EngineState :=
  { st with gameState := .roundOver }

/-- The winner computed (and then discarded) by the body of
`UnoGameEngine._end_game_with_scores`: the players with the lowest hand
score, tie-broken by fewest cards remaining, then by `random.choice`
(the oracle `choice`). -/
def end_game_scored_winner (hands : List (List Card))
    (choice : List Nat → Option Nat) : Option Nat :=
  match (hands.map calculate_hand_score).min? with
  | none => none
  | some m =>
    let winners := (List.range hands.length).filter
      (fun i => calculate_hand_score (hands.getD i []) = m)
    match winners with
    | [w] => some w
    | _ =>
      match (winners.map (fun i => (hands.getD i []).length)).min? with
      | none => none
      | some ms =>
        match winners.filter (fun i => (hands.getD i []).length = ms) with
        | [w] => some w
        | finalWinners => choice finalWinners

/-- The winner selection at the end of `UnoGameEngine.auto_play_game`
(lines 421-442): when the round is over, the player with an empty hand
if there is one, otherwise `winners[0]` — the first seated player whose
hand score equals the minimum.  The fewest-cards and random tie-breaks
of `_end_game_with_scores` are not consulted here. -/
def auto_play_winner (st : EngineState) : Option Nat :=
  if st.gameState = GameState.roundOver then
    match check_winner st with
    | some w => some w
    | none =>
      match (st.hands.map calculate_hand_score).min? with
      | none => none
      | some m => st.hands.findIdx? (fun h => calculate_hand_score h = m)
  else none

/-- The success path of `UnoGameEngine.play_card`: move the card from
the hand of player `p` to the top of the discard pile and update the
active color (`new_color` when given — in Python a set `new_color` is
truthy — else the card's own color unless the card is wild). -/
def play_card_apply (st : EngineState) (p : Nat) (card : Card)
    (new_color : Option CardColor) : EngineState :=
  let st1 := st.setHand p ((st.hand p).erase card)
  let st2 := { st1 with discard := st1.discard ++ [card] }
  match new_color with
  | some c => { st2 with currentColor := some c }
  | none =>
    if card.color ≠ CardColor.wild then
      { st2 with currentColor := some card.color }
    else st2

/-- `UnoGameEngine.play_card`: refuse when the card is not in the hand
of player `p` or is not legal on the top discard card and active color;
otherwise apply the play.  The effects dictionary returned by
`card.play` is unused by the claims and not modelled. -/
def play_card (st : EngineState) (p : Nat) (card : Card)
    (new_color : Option CardColor) : Except String EngineState :=
  if card ∈ st.hand p then
    match st.discard.getLast? with
    | none => .error "Discard pile is empty"
    | some top =>
      if card.can_play_on top st.currentColor then
        .ok (play_card_apply st p card new_color)
      else .error "Card cannot be played"
  else .error "Card not in hand"

/-- `UnoGameEngine.draw_card`: when the deck is empty, either reshuffle
(the endless-reshuffle mode) or end the round; in Python a failing
reshuffle mutates `game_state` to `ROUND_OVER` and re-raises, so the
error case carries the mutated state.  On success the top deck card is
appended to the hand of player `p`. -/
def draw_refill (shuffle : List Card → List Card) (st : EngineState) :
    Except (String × EngineState) EngineState :=
  if st.deck.isEmpty then
    if st.endlessReshuffle then
      match reshuffle_discard_pile shuffle st with
      | .ok st' => .ok st'
      | .error msg => .error (msg, { st with gameState := .roundOver })
    else .error ("Deck is empty and reshuffling is disabled",
                 { st with gameState := .roundOver })
  else .ok st

/-- The body of `UnoGameEngine.draw_card` after the possible refill:
draw the top deck card and append it to the hand of player `p`. -/
def draw_card (shuffle : List Card → List Card) (st : EngineState) (p : Nat) :
    Except (String × EngineState) (Card × EngineState) :=
  match draw_refill shuffle st with
  | .error e => .error e
  | .ok st' =>
    match st'.deck with
    | [] => .error ("Deck is empty", st')
    | c :: rest =>
      .ok (c, ({ st' with deck := rest }).setHand p (st'.hand p ++ [c]))

/-- The action chosen by `Player.choose_action`: draw, play a specific
card (with an optional chosen color), or neither (`PlayerAction` with
`draw_card` false and `card` unset falls through `play_turn`'s
`if`/`elif` without an action). -/
inductive PlayerAction
  | draw
  | play (card : Card) (new_color : Option CardColor)
  | pass
deriving DecidableEq, Repr

/-- The Agent Contract as consumed by `play_turn` (implementations are
external).  Decisions are modelled as functions of the full engine
state, which subsumes the observed view (`update_game_state` passes the
legal cards, top card and active color). -/
structure Agent where
  chooseAction : EngineState → PlayerAction
  shouldPlayDrawnCard : EngineState → Card → Bool

/-- The tail of `play_turn` after the chosen action has been applied:
the UNO declaration (`say_uno`) has no engine-state effect, then
`check_winner` may end the round, else the turn passes to the next
player and the turn continues. -/
def after_action (st : EngineState) : Bool × EngineState :=
  match check_winner st with
  | some _ => (false, { st with gameState := .roundOver })
  | none => (true, next_turn st)

/-- The draw branch of `play_turn` (`if action.draw_card:`): draw one
card; when the drawn card is immediately playable and the agent's
drawn-card policy approves, play it at once.  Errors of `draw_card` and
of the inner `play_card` propagate to `play_turn`'s handler. -/
def draw_branch (ag : Agent) (shuffle : List Card → List Card)
    (st1 : EngineState) (p : Nat) :
    Except (String × EngineState) (Bool × EngineState) :=
  match draw_card shuffle st1 p with
  | .error e => .error e
  | .ok (drawn, st2) =>
    match st2.discard.getLast? with
    | none => .error ("Discard pile is empty", st2)
    | some top2 =>
      if drawn.can_play_on top2 st2.currentColor && ag.shouldPlayDrawnCard st2 drawn then
        match play_card st2 p drawn none with
        | .error msg => .error (msg, st2)
        | .ok st3 => .ok (after_action st3)
      else .ok (after_action st2)

/-- The play branch of `play_turn` (`elif action.card:`): attempt the
play; on success resolve effects — REVERSE flips the direction, SKIP
advances the turn pointer an extra step, and for DRAW_TWO and
WILD_DRAW_FOUR the Python code only computes a local `draw_count` that
is never used, so they have no effect.  On a `ValueError` from
`play_card` the inner handler forces a draw; if that draw also fails,
the round ends with forced scoring. -/
def play_branch (shuffle : List Card → List Card) (st1 : EngineState)
    (p : Nat) (card : Card) (new_color : Option CardColor) :
    Except (String × EngineState) (Bool × EngineState) :=
  match play_card st1 p card new_color with
  | .ok st2 =>
    let st3 :=
      if card.label = CardLabel.reverse then reverse_direction st2
      else if card.label = CardLabel.skip then next_turn st2
      else st2
    .ok (after_action st3)
  | .error _ =>
    match draw_card shuffle st1 p with
    | .error _ => .ok (false, end_game_with_scores st1)
    | .ok (_, st2) => .ok (after_action st2)

/-- The body of `play_turn` inside its `try`: fetch the top discard
card (raising when the pile is empty), let the current player choose an
action, and dispatch on it. -/
def play_turn_inner (agents : Nat → Agent) (shuffle : List Card → List Card)
    (st1 : EngineState) : Except (String × EngineState) (Bool × EngineState) :=
  let p := st1.currentPlayerIndex
  match st1.discard.getLast? with
  | none => .error ("Discard pile is empty", st1)
  | some _top =>
    match (agents p).chooseAction st1 with
    | .draw => draw_branch (agents p) shuffle st1 p
    | .play card new_color => play_branch shuffle st1 p card new_color
    | .pass => .ok (after_action st1)

/-- Does this error message name one of the two deck/discard exhaustion
errors handled by `play_turn` and `auto_play_game`
(`"Not enough cards to reshuffle" in str(e) or
"Deck is empty and reshuffling is disabled" in str(e)`)? -/
def exhaustion_msg (msg : String) : Bool :=
  msg = "Not enough cards to reshuffle" ||
  msg = "Deck is empty and reshuffling is disabled"

/-- `UnoGameEngine.play_turn`: at the turn ceiling, force scoring and
stop; otherwise bump the turn counter, run the body, and convert the two
deck-exhaustion errors into a forced-scoring round end; any other error
is re-raised. -/
def play_turn (agents : Nat → Agent) (shuffle : List Card → List Card)
    (st : EngineState) : Except (String × EngineState) (Bool × EngineState) :=
  if st.turnCount ≥ max_turns then
    .ok (false, end_game_with_scores st)
  else
    match play_turn_inner agents shuffle { st with turnCount := st.turnCount + 1 } with
    | .ok r => .ok r
    | .error (msg, st') =>
      if exhaustion_msg msg then .ok (false, end_game_with_scores st')
      else .error (msg, st')

/-- The outcome of the `auto_play_game` main loop: the number of
`play_turn` calls made, the final state, or a re-raised error.
`fuelOut` is an artifact of the fuel parameter and is proved
unreachable when the fuel is at least `max_turns + 1`. -/
inductive LoopResult
  | ok (calls : Nat) (st : EngineState)
  | err (msg : String) (st : EngineState)
  | fuelOut (calls : Nat) (st : EngineState)
deriving DecidableEq, Repr

/-- Number of `play_turn` calls recorded in a loop outcome. -/
def LoopResult.calls : LoopResult → Nat
  | .ok n _ => n
  | .err _ _ => 0
  | .fuelOut n _ => n

/-- Final engine state of a loop outcome. -/
def LoopResult.state : LoopResult → EngineState
  | .ok _ s => s
  | .err _ s => s
  | .fuelOut _ s => s

/-- Did the loop run out of fuel? -/
def LoopResult.isFuelOut : LoopResult → Bool
  | .fuelOut _ _ => true
  | _ => false

/-- The main loop of `UnoGameEngine.auto_play_game` (after
`initialize_game`): while the game is in progress, call `play_turn`;
a `False` return breaks, the two deck-exhaustion errors force scoring
and break, any other error propagates. -/
def auto_play_loop (agents : Nat → Agent) (shuffle : List Card → List Card) :
    Nat → EngineState → LoopResult
  | 0, st =>
    if st.gameState = GameState.inProgress then .fuelOut 0 st else .ok 0 st
  | fuel + 1, st =>
    if st.gameState = GameState.inProgress then
      match play_turn agents shuffle st with
      | .ok (true, st') =>
        match auto_play_loop agents shuffle fuel st' with
        | .ok n s => .ok (n + 1) s
        | .err m s => .err m s
        | .fuelOut n s => .fuelOut (n + 1) s
      | .ok (false, st') => .ok 1 st'
      | .error (msg, st') =>
        if exhaustion_msg msg then .ok 1 (end_game_with_scores st')
        else .err msg st'
    else .ok 0 st

/-- `UnoGameEngine.auto_play_game` from an initialized state: run the
main loop, then select the winner as in lines 421-442. -/
def auto_play_game (agents : Nat → Agent) (shuffle : List Card → List Card)
    (fuel : Nat) (st : EngineState) : Except String (Option Nat) :=
  match auto_play_loop agents shuffle fuel st with
  | .ok _ s => .ok (auto_play_winner s)
  | .err m _ => .error m
  | .fuelOut _ _ => .error "fuel exhausted"

/-- The engine state carried by a `play_turn`-shaped result (the updated
state on success, the state at the raise on error). -/
def resState : Except (String × EngineState) (Bool × EngineState) → EngineState
  | .ok bs => bs.2
  | .error e => e.2

/-! ### Simulator (`simulator.py`) -/

/-- The outcome of one `auto_play_game` call inside
`UnoSimulation.run_simulation`: a winner was returned, `None` was
returned (falsy, not counted), or the game raised (the `except` clause
runs `continue`). -/
inductive GameResult
  | won (winnerName : String)
  | noWinner
  | raised
deriving DecidableEq, Repr

/-- Increment one name's tally in a win-count table. -/
def bumpWin (w : String → Nat) (name : String) : String → Nat :=
  fun n => if n = name then w n + 1 else w n

/-- The win-count accumulation of `UnoSimulation.run_simulation`: for
each game, a returned winner bumps its name's count; a `None` winner or
a raised exception leaves every count unchanged and the loop continues
with the next game. -/
def run_simulation_wins : List GameResult → (String → Nat) → (String → Nat)
  | [], w => w
  | .won name :: rest, w => run_simulation_wins rest (bumpWin w name)
  | .noWinner :: rest, w => run_simulation_wins rest w
  | .raised :: rest, w => run_simulation_wins rest w

/-- The win counts of a batch, starting from the all-zero table built in
`UnoSimulation.__init__`. -/
def win_counts (games : List GameResult) (name : String) : Nat :=
  run_simulation_wins games (fun _ => 0) name

/-! ### Match runner (`tournament.py`, `MatchResult.run_match`) -/

/-- The observable outcome of `MatchResult.run_match`: the declared
match winner, the `draws` tally, and the `is_draw` flag of the returned
dictionary. -/
structure MatchOutcome where
  winner : String
  draws : Nat
  is_draw : Bool
deriving DecidableEq, Repr

/-- `MatchResult.run_match`: run the batch of games, read the two
players' win counts, declare the strictly-higher one the match winner;
on a tie pick the winner by `random.choice` (the `coin` oracle, `true`
picks player 1) and record one draw. -/
def run_match (p1 p2 : String) (games : List GameResult) (coin : Bool) :
    MatchOutcome :=
  let w1 := win_counts games p1
  let w2 := win_counts games p2
  if w1 > w2 then ⟨p1, 0, decide (w1 = w2)⟩
  else if w2 > w1 then ⟨p2, 0, decide (w1 = w2)⟩
  else ⟨if coin then p1 else p2, 1, decide (w1 = w2)⟩

/-! ### Double elimination (`tournament.py`, `_run_double_elimination`)

Tournament players are identified by numbers; `bye` marks the synthetic
`BYE_` entries added by bracket padding.  Match outcomes are supplied by
the oracle `o` consulted at an increasing match counter (`o k = true`
means player 1 of match `k` wins; `run_match` always declares a
winner). -/

/-- The per-player tallies of `TournamentPlayer` used by the bracket
logic. -/
structure TPStats where
  wins : Nat := 0
  losses : Nat := 0
  draws : Nat := 0
  points : Nat := 0
  eliminated : Bool := false
deriving DecidableEq, Repr

/-- The fresh tallies of tournament setup. -/
def initialStats : Nat → TPStats := fun _ => {}

/-- Point update of one player's tallies. -/
def updStats (s : Nat → TPStats) (i : Nat) (f : TPStats → TPStats) :
    Nat → TPStats :=
  fun j => if j = i then f (s j) else s j

/-- `wins += 1; points += 3`. -/
def winBump (t : TPStats) : TPStats :=
  { t with wins := t.wins + 1, points := t.points + 3 }

/-- `losses += 1` (winners bracket: no elimination). -/
def loseBump (t : TPStats) : TPStats :=
  { t with losses := t.losses + 1 }

/-- `losses += 1; eliminated = True` (losers bracket). -/
def elimBump (t : TPStats) : TPStats :=
  { t with losses := t.losses + 1, eliminated := true }

/-- `for i in range(0, len(l), 2): if i + 1 < len(l)` — consecutive
pairs; an odd trailing element yields no pair. -/
def pairList : List α → List (α × α)
  | a :: b :: rest => (a, b) :: pairList rest
  | _ => []

/-- Winners bracket round 1 of `_run_double_elimination`: a pair with a
`BYE_` entry advances the real player (3 points, one win) and sends the
bye down with one loss, without playing a match; a real pair plays one
match, the winner advances and the loser drops to the losers bracket
with one loss and no elimination. -/
def de_round1 (bye : Nat → Bool) (o : Nat → Bool) :
    List (Nat × Nat) → (Nat → TPStats) → Nat →
    List Nat × List Nat × (Nat → TPStats) × Nat
  | [], stats, k => ([], [], stats, k)
  | (p1, p2) :: rest, stats, k =>
    if bye p1 || bye p2 then
      let winner := if bye p1 then p2 else p1
      let loser := if bye p1 then p1 else p2
      let stats1 := updStats (updStats stats winner winBump) loser loseBump
      let r := de_round1 bye o rest stats1 k
      (winner :: r.1, loser :: r.2.1, r.2.2)
    else
      let winner := if o k then p1 else p2
      let loser := if o k then p2 else p1
      let stats1 := updStats (updStats stats winner winBump) loser loseBump
      let r := de_round1 bye o rest stats1 (k + 1)
      (winner :: r.1, loser :: r.2.1, r.2.2)

/-- A later winners bracket round: the loser of each pair gets one loss
(no elimination) and is collected for the losers bracket. -/
def de_wround (o : Nat → Bool) :
    List (Nat × Nat) → (Nat → TPStats) → Nat →
    List Nat × List Nat × (Nat → TPStats) × Nat
  | [], stats, k => ([], [], stats, k)
  | (p1, p2) :: rest, stats, k =>
    let winner := if o k then p1 else p2
    let loser := if o k then p2 else p1
    let stats1 := updStats (updStats stats winner winBump) loser loseBump
    let r := de_wround o rest stats1 (k + 1)
    (winner :: r.1, loser :: r.2.1, r.2.2)

/-- A losers bracket round: the loser of each pair gets one loss and is
eliminated. -/
def de_lround (o : Nat → Bool) :
    List (Nat × Nat) → (Nat → TPStats) → Nat →
    List Nat × (Nat → TPStats) × Nat
  | [], stats, k => ([], stats, k)
  | (p1, p2) :: rest, stats, k =>
    let winner := if o k then p1 else p2
    let loser := if o k then p2 else p1
    let stats1 := updStats (updStats stats winner winBump) loser elimBump
    let r := de_lround o rest stats1 (k + 1)
    (winner :: r.1, r.2)

/-- The `while len(winners) > 1 or len(losers) > 1` loop: one winners
pass (its losers are appended to the losers bracket), then one losers
pass over the extended bracket.  `fuel` bounds the number of loop
iterations; the elimination invariant holds for every fuel. -/
def de_loop (o : Nat → Bool) :
    Nat → List Nat → List Nat → (Nat → TPStats) → Nat →
    List Nat × List Nat × (Nat → TPStats) × Nat
  | 0, winners, losers, stats, k => (winners, losers, stats, k)
  | fuel + 1, winners, losers, stats, k =>
    if winners.length > 1 || losers.length > 1 then
      let w :=
        if winners.length > 1 then de_wround o (pairList winners) stats k
        else (winners, [], stats, k)
      let losers1 := losers ++ w.2.1
      let l :=
        if losers1.length > 1 then de_lround o (pairList losers1) w.2.2.1 w.2.2.2
        else (losers1, w.2.2.1, w.2.2.2)
      de_loop o fuel w.1 l.1 l.2.1 l.2.2
    else (winners, losers, stats, k)

/-- The grand final: winners-bracket survivor vs losers-bracket
survivor; if the losers-bracket survivor wins the first match, a second
decisive match is played (bracket reset).  Losses are recorded but no
one is eliminated here. -/
def de_final (o : Nat → Bool) (winners losers : List Nat)
    (stats : Nat → TPStats) (k : Nat) : Option Nat × (Nat → TPStats) :=
  match winners, losers with
  | ww :: _, lw :: _ =>
    if o k then
      (some ww, updStats (updStats stats ww winBump) lw loseBump)
    else
      let stats1 := updStats (updStats stats lw winBump) ww loseBump
      if o (k + 1) then
        (some ww, updStats (updStats stats1 ww winBump) lw loseBump)
      else
        (some lw, updStats (updStats stats1 lw winBump) ww loseBump)
  | _, _ => (none, stats)

/-- `_run_double_elimination` over a padded bracket, from fresh
tallies: round 1 with byes, the winners/losers loop, then the grand
final.  Returns the champion and the final tallies. -/
def run_double_elimination (bye : Nat → Bool) (o : Nat → Bool) (fuel : Nat)
    (bracket : List Nat) : Option Nat × (Nat → TPStats) :=
  let r1 := de_round1 bye o (pairList bracket) initialStats 0
  let lp := de_loop o fuel r1.1 r1.2.1 r1.2.2.1 r1.2.2.2
  de_final o lp.1 lp.2.1 lp.2.2.1 lp.2.2.2

/-! ### Swiss system (`tournament.py`, `_run_swiss`)

Players are identified by numbers (distinct players have distinct
names).  The sorted order of each round — by match score with a random
tie-break component — is supplied by the oracle `ord`; the pairing and
rematch-avoidance logic below is exactly the index loop of `_run_swiss`
expressed on the ordered list. -/

/-- Have `x` and `y` already faced each other
(`player2.name in player1.opponents_faced or player1.name in
player2.opponents_faced`)? -/
def metB (opp : Nat → List Nat) (x y : Nat) : Bool :=
  decide (y ∈ opp x) || decide (x ∈ opp y)

/-- Find the first later unpaired candidate that `x` has not faced
(the inner `for j in range(i + 1, ...)` loop). -/
def findOpponent (opp : Nat → List Nat) (x : Nat) : List Nat → Option Nat
  | [] => none
  | y :: ys => if metB opp x y then findOpponent opp x ys else some y

/-- Greedy top-down pairing of one Swiss round: each yet-unpaired
player in order is paired with the first later unpaired player it has
not faced; a player with no valid candidate stays unpaired this
round.  Pairing a candidate removes it from the pool (`paired_indices`). -/
def pairPlayers (opp : Nat → List Nat) : List Nat → List (Nat × Nat)
  | [] => []
  | x :: rest =>
    match findOpponent opp x rest with
    | some y => (x, y) :: pairPlayers opp (rest.erase y)
    | none => pairPlayers opp rest
termination_by l => l.length
decreasing_by
  all_goals simp only [List.length_cons]
  · exact Nat.lt_succ_of_le (List.Sublist.length_le (List.erase_sublist _ _))
  · exact Nat.lt_succ_self _

/-- `TournamentPlayer.add_opponent`: append the opponent's name unless
already present. -/
def add_opponent (opp : Nat → List Nat) (x y : Nat) : Nat → List Nat :=
  fun i => if i = x then (if y ∈ opp x then opp x else opp x ++ [y]) else opp i

/-- After the matches of a round, both players of every pairing record
each other. -/
def recordPairs (opp : Nat → List Nat) : List (Nat × Nat) → (Nat → List Nat)
  | [] => opp
  | (x, y) :: ps => recordPairs (add_opponent (add_opponent opp x y) y x) ps

/-- The Swiss round loop: each round pairs the oracle-ordered players
against the current opponents-faced record, plays the pairings, and
records the opponents. -/
def swiss_rounds (ord : Nat → List Nat) :
    Nat → (Nat → List Nat) → Nat → List (List (Nat × Nat))
  | 0, _, _ => []
  | n + 1, opp, r =>
    let ps := pairPlayers opp (ord r)
    ps :: swiss_rounds ord n (recordPairs opp ps) (r + 1)

/-- `_run_swiss`: `min(5, len(self.players))` rounds from the reset
opponents-faced lists of `_create_swiss_bracket`. -/
def run_swiss (ord : Nat → List Nat) (players : List Nat) :
    List (List (Nat × Nat)) :=
  swiss_rounds ord (min 5 players.length) (fun _ => []) 0

/-- Two pairings name the same unordered pair of players. -/
def samePair (p q : Nat × Nat) : Prop :=
  (q.1 = p.1 ∧ q.2 = p.2) ∨ (q.1 = p.2 ∧ q.2 = p.1)

instance : DecidablePred fun pq : (Nat × Nat) × Nat × Nat => samePair pq.1 pq.2 :=
  fun _ => by unfold samePair; infer_instance

/-! ### Concrete scenarios used by the theorems below -/

/-- A red number card. -/
def redNum (n : Nat) : Card := { color := CardColor.red, label := CardLabel.num n }

/-- A round that ended by forced scoring with the two lowest hand scores
tied at 2 points: player 0 holds two cards, player 1 holds one. -/
def c1_state : EngineState :=
  { deck := [], discard := [redNum 5],
    hands := [[redNum 1, redNum 1], [redNum 2]],
    currentPlayerIndex := 0, clockwise := true,
    currentColor := some CardColor.red, gameState := .roundOver,
    turnCount := 40, endlessReshuffle := true }

/-- An agent that neither draws nor names a card
(`PlayerAction` with `draw_card` false and `card` unset). -/
def pass_agent : Agent :=
  { chooseAction := fun _ => .pass, shouldPlayDrawnCard := fun _ _ => false }

/-- A two-player in-progress position parametrized by turn counter and
seat: the game can never end on its own (no agent ever plays or draws),
so only the turn ceiling stops it. -/
def c4_state (t i : Nat) : EngineState :=
  { deck := [], discard := [redNum 5], hands := [[redNum 1], [redNum 1]],
    currentPlayerIndex := i, clockwise := true,
    currentColor := some CardColor.red, gameState := .inProgress,
    turnCount := t, endlessReshuffle := true }

/-- A blue card that is illegal on a red 5 with active color red. -/
def blueSeven : Card := { color := CardColor.blue, label := CardLabel.num 7 }

/-- An agent that requests to play `blueSeven` (illegal on `c2_state`). -/
def c2_agent : Agent :=
  { chooseAction := fun _ => .play blueSeven none,
    shouldPlayDrawnCard := fun _ _ => false }

/-- A position where the current agent holds only the illegal
`blueSeven`: its play attempt must degrade to a forced draw. -/
def c2_state : EngineState :=
  { deck := [redNum 3, redNum 4], discard := [redNum 5],
    hands := [[blueSeven], [redNum 1]],
    currentPlayerIndex := 0, clockwise := true,
    currentColor := some CardColor.red, gameState := .inProgress,
    turnCount := 10, endlessReshuffle := true }

/-- A red DRAW_TWO card. -/
def redDrawTwo : Card := { color := CardColor.red, label := CardLabel.drawTwo }

/-- An agent that plays the red DRAW_TWO. -/
def c10_agent : Agent :=
  { chooseAction := fun _ => .play redDrawTwo none,
    shouldPlayDrawnCard := fun _ _ => false }

/-- A position where the current agent legally plays a DRAW_TWO. -/
def c10_state : EngineState :=
  { deck := [redNum 3], discard := [redNum 5],
    hands := [[redDrawTwo, redNum 2], [redNum 1], [redNum 6]],
    currentPlayerIndex := 0, clockwise := true,
    currentColor := some CardColor.red, gameState := .inProgress,
    turnCount := 10, endlessReshuffle := true }

/-- A state whose discard pile has two cards (reshuffle must succeed). -/
def c5_state : EngineState :=
  { deck := [redNum 3], discard := [redNum 4, redNum 5],
    hands := [[redNum 1], [redNum 2]],
    currentPlayerIndex := 0, clockwise := true,
    currentColor := some CardColor.red, gameState := .inProgress,
    turnCount := 0, endlessReshuffle := true }

/-- Elimination soundness: every player flagged `eliminated` has at
least two recorded losses. -/
def ElimInv (s : Nat → TPStats) : Prop :=
  ∀ q, (s q).eliminated = true → 2 ≤ (s q).losses

/-- Everyone in the losers bracket has at least one recorded loss. -/
def LosersOk (l : List Nat) (s : Nat → TPStats) : Prop :=
  ∀ q ∈ l, 1 ≤ (s q).losses

/-! ### Characterizations of the engine operations -/

theorem mem_hand_lt {st : EngineState} {p : Nat} {c : Card}
    (h : c ∈ st.hand p) : p < st.hands.length := by
  by_contra hge
  push_neg at hge
  have he : st.hand p = [] := by
    simp only [EngineState.hand]
    exact List.getD_eq_default _ _ hge
  simp [he] at h

theorem reshuffle_ok_elim {shuffle : List Card → List Card}
    {st st' : EngineState}
    (h : reshuffle_discard_pile shuffle st = .ok st') :
    2 ≤ st.discard.length ∧
    ∃ top, st.discard.getLast? = some top ∧
      st' = { st with deck := shuffle (st.deck ++ st.discard.dropLast),
                      discard := [top] } := by
  unfold reshuffle_discard_pile at h
  split at h
  · simp at h
  next hlen =>
    split at h
    · simp at h
    next top htop =>
      injection h with h
      exact ⟨by omega, top, htop, h.symm⟩

theorem reshuffle_error_of_le {shuffle : List Card → List Card}
    {st : EngineState} (h : st.discard.length ≤ 1) :
    reshuffle_discard_pile shuffle st = .error "Not enough cards to reshuffle" := by
  simp [reshuffle_discard_pile, h]

theorem reshuffle_ok_of_ge {shuffle : List Card → List Card}
    {st : EngineState} (h : 2 ≤ st.discard.length) :
    ∃ st', reshuffle_discard_pile shuffle st = .ok st' := by
  unfold reshuffle_discard_pile
  rw [if_neg (by omega)]
  cases hl : st.discard.getLast? with
  | none =>
    have : st.discard = [] := by
      cases hd : st.discard with
      | nil => rfl
      | cons a as => rw [hd] at hl; simp at hl
    rw [this] at h
    simp at h
  | some top => exact ⟨_, rfl⟩

theorem draw_refill_ok_elim {shuffle : List Card → List Card}
    {st stm : EngineState}
    (h : draw_refill shuffle st = .ok stm) :
    stm = st ∨ reshuffle_discard_pile shuffle st = .ok stm := by
  unfold draw_refill at h
  split at h
  · split at h
    · split at h
      next heq =>
        injection h with h
        exact .inr (h ▸ heq)
      · simp at h
    · simp at h
  · injection h with h
    exact .inl h.symm

theorem draw_refill_error_elim {shuffle : List Card → List Card}
    {st st' : EngineState} {m : String}
    (h : draw_refill shuffle st = .error (m, st')) :
    st' = { st with gameState := .roundOver } := by
  unfold draw_refill at h
  split at h
  · split at h
    · split at h
      · simp at h
      · injection h with h
        injection h with h1 h2
        exact h2.symm
    · injection h with h
      injection h with h1 h2
      exact h2.symm
  · simp at h

theorem draw_card_ok_elim {shuffle : List Card → List Card}
    {st st' : EngineState} {p : Nat} {c : Card}
    (h : draw_card shuffle st p = .ok (c, st')) :
    ∃ stm,
      (stm = st ∨ reshuffle_discard_pile shuffle st = .ok stm) ∧
      ∃ rest, stm.deck = c :: rest ∧
        st' = ({ stm with deck := rest }).setHand p (stm.hand p ++ [c]) := by
  unfold draw_card at h
  split at h
  · simp at h
  next st1 heq =>
    split at h
    · simp at h
    next c0 rest hdeck =>
      injection h with h
      injection h with h1 h2
      subst h1
      exact ⟨st1, draw_refill_ok_elim heq, rest, hdeck, h2.symm⟩

theorem draw_card_error_elim {shuffle : List Card → List Card}
    {st st' : EngineState} {p : Nat} {m : String}
    (h : draw_card shuffle st p = .error (m, st')) :
    st' = { st with gameState := .roundOver } ∨
    (st' = st ∨ reshuffle_discard_pile shuffle st = .ok st') := by
  unfold draw_card at h
  split at h
  next e heq =>
    injection h with h
    subst h
    exact .inl (draw_refill_error_elim heq)
  next st1 heq =>
    split at h
    next hdeck =>
      injection h with h
      injection h with h1 h2
      subst h2
      exact .inr (draw_refill_ok_elim heq)
    · simp at h

theorem play_card_ok_elim {st st' : EngineState} {p : Nat} {card : Card}
    {nc : Option CardColor}
    (h : play_card st p card nc = .ok st') :
    card ∈ st.hand p ∧
    ∃ top, st.discard.getLast? = some top ∧
      card.can_play_on top st.currentColor = true ∧
      st' = play_card_apply st p card nc := by
  unfold play_card at h
  split at h
  next hmem =>
    split at h
    · simp at h
    next top htop =>
      split at h
      next hcan =>
        injection h with h
        exact ⟨hmem, top, htop, hcan, h.symm⟩
      · simp at h
  · simp at h

theorem play_card_error_of_illegal {st : EngineState} {p : Nat} {card : Card}
    {nc : Option CardColor} {top : Card}
    (htop : st.discard.getLast? = some top)
    (hill : card ∉ st.hand p ∨ card.can_play_on top st.currentColor = false) :
    ∃ m, play_card st p card nc = .error m := by
  unfold play_card
  rcases hill with hm | hc
  · rw [if_neg hm]
    exact ⟨_, rfl⟩
  · split
    · rw [htop]
      simp [hc]
    · exact ⟨_, rfl⟩

theorem after_action_elim {st st' : EngineState} {b : Bool}
    (h : after_action st = (b, st')) :
    (b = true ∧ check_winner st = none ∧ st' = next_turn st) ∨
    (b = false ∧ (∃ w, check_winner st = some w) ∧
      st' = { st with gameState := .roundOver }) := by
  unfold after_action at h
  split at h <;> injection h with h1 h2
  · exact .inr ⟨h1.symm, ⟨_, by assumption⟩, h2.symm⟩
  · exact .inl ⟨h1.symm, by assumption, h2.symm⟩

/-! ### Preservation of the turn counter

The body of a turn never touches `turn_count`; only the `play_turn`
prologue increments it.  These lemmas drive the termination argument. -/

theorem play_card_apply_turnCount (st : EngineState) (p : Nat) (card : Card)
    (nc : Option CardColor) :
    (play_card_apply st p card nc).turnCount = st.turnCount := by
  cases nc <;>
    simp [play_card_apply, EngineState.setHand, apply_ite EngineState.turnCount]

theorem reshuffle_ok_turnCount {shuffle : List Card → List Card}
    {st st' : EngineState} (h : reshuffle_discard_pile shuffle st = .ok st') :
    st'.turnCount = st.turnCount := by
  obtain ⟨-, top, -, rfl⟩ := reshuffle_ok_elim h
  rfl

theorem draw_card_ok_turnCount {shuffle : List Card → List Card}
    {st st' : EngineState} {p : Nat} {c : Card}
    (h : draw_card shuffle st p = .ok (c, st')) :
    st'.turnCount = st.turnCount := by
  obtain ⟨stm, hm, rest, hdeck, rfl⟩ := draw_card_ok_elim h
  have htc : stm.turnCount = st.turnCount := by
    rcases hm with rfl | hr
    · rfl
    · exact reshuffle_ok_turnCount hr
  simpa [EngineState.setHand] using htc

theorem draw_card_error_turnCount {shuffle : List Card → List Card}
    {st st' : EngineState} {p : Nat} {m : String}
    (h : draw_card shuffle st p = .error (m, st')) :
    st'.turnCount = st.turnCount := by
  rcases draw_card_error_elim h with rfl | rfl | hr
  · rfl
  · rfl
  · exact reshuffle_ok_turnCount hr

theorem after_action_snd_turnCount (st : EngineState) :
    (after_action st).2.turnCount = st.turnCount := by
  unfold after_action
  split
  · rfl
  · simp [next_turn]

theorem draw_branch_turnCount (ag : Agent) (shuffle : List Card → List Card)
    (st1 : EngineState) (p : Nat) :
    (resState (draw_branch ag shuffle st1 p)).turnCount = st1.turnCount := by
  unfold draw_branch
  split
  next e heq =>
    cases e with
    | mk m s => exact draw_card_error_turnCount heq
  next drawn st2 heq =>
    have h2 : st2.turnCount = st1.turnCount := draw_card_ok_turnCount heq
    split
    · exact h2
    next top2 _ =>
      split
      · split
        next msg _ => exact h2
        next st3 heq3 =>
          obtain ⟨-, top, -, -, rfl⟩ := play_card_ok_elim heq3
          calc (resState (.ok (after_action (play_card_apply st2 p drawn none)))).turnCount
              = (play_card_apply st2 p drawn none).turnCount :=
                after_action_snd_turnCount _
            _ = st1.turnCount := by rw [play_card_apply_turnCount, h2]
      · calc (resState (.ok (after_action st2))).turnCount
            = st2.turnCount := after_action_snd_turnCount _
          _ = st1.turnCount := h2

theorem play_branch_turnCount (shuffle : List Card → List Card)
    (st1 : EngineState) (p : Nat) (card : Card) (nc : Option CardColor) :
    (resState (play_branch shuffle st1 p card nc)).turnCount = st1.turnCount := by
  unfold play_branch
  split
  next st2 heq =>
    obtain ⟨-, top, -, -, rfl⟩ := play_card_ok_elim heq
    have h2 := play_card_apply_turnCount st1 p card nc
    split
    · calc (resState (.ok (after_action (reverse_direction (play_card_apply st1 p card nc))))).turnCount
          = (reverse_direction (play_card_apply st1 p card nc)).turnCount :=
            after_action_snd_turnCount _
        _ = st1.turnCount := by simp [reverse_direction, h2]
    · split
      · calc (resState (.ok (after_action (next_turn (play_card_apply st1 p card nc))))).turnCount
            = (next_turn (play_card_apply st1 p card nc)).turnCount :=
              after_action_snd_turnCount _
          _ = st1.turnCount := by simp [next_turn, h2]
      · calc (resState (.ok (after_action (play_card_apply st1 p card nc)))).turnCount
            = (play_card_apply st1 p card nc).turnCount := after_action_snd_turnCount _
          _ = st1.turnCount := h2
  next e heq =>
    split
    next e2 heq2 =>
      cases e2 with
      | mk m s =>
        show (end_game_with_scores st1).turnCount = st1.turnCount
        rfl
    next c2 st2 heq2 =>
      calc (resState (.ok (after_action st2))).turnCount
          = st2.turnCount := after_action_snd_turnCount _
        _ = st1.turnCount := draw_card_ok_turnCount heq2

theorem play_turn_inner_turnCount (agents : Nat → Agent)
    (shuffle : List Card → List Card) (st1 : EngineState) :
    (resState (play_turn_inner agents shuffle st1)).turnCount = st1.turnCount := by
  unfold play_turn_inner
  split
  · rfl
  · dsimp only
    cases (agents st1.currentPlayerIndex).chooseAction st1 with
    | draw => exact draw_branch_turnCount _ _ _ _
    | play card nc => exact play_branch_turnCount _ _ _ _ _
    | pass => exact after_action_snd_turnCount _

theorem play_turn_ok_true_turnCount {agents : Nat → Agent}
    {shuffle : List Card → List Card} {st st' : EngineState}
    (h : play_turn agents shuffle st = .ok (true, st')) :
    st'.turnCount = st.turnCount + 1 ∧ st.turnCount < max_turns := by
  unfold play_turn at h
  split at h
  · injection h with h
    injection h with h1 h2
    simp at h1
  next hceil =>
    refine ⟨?_, by omega⟩
    split at h
    next r heq =>
      injection h with h
      subst h
      have := play_turn_inner_turnCount agents shuffle
        { st with turnCount := st.turnCount + 1 }
      rw [heq] at this
      exact this
    next m st2 heq =>
      split at h
      · injection h with h
        injection h with h1 h2
        simp at h1
      · simp at h

/-! ### Termination of the auto-play loop -/

theorem play_turn_ceiling {agents : Nat → Agent} {shuffle : List Card → List Card}
    {st : EngineState} (h : max_turns ≤ st.turnCount) :
    play_turn agents shuffle st = .ok (false, end_game_with_scores st) := by
  unfold play_turn
  rw [if_pos h]

theorem auto_play_loop_calls (agents : Nat → Agent) (shuffle : List Card → List Card) :
    ∀ (fuel : Nat) (st : EngineState), st.turnCount ≤ max_turns →
      (auto_play_loop agents shuffle fuel st).calls + st.turnCount ≤ max_turns + 1 := by
  intro fuel
  induction fuel with
  | zero =>
    intro st h
    unfold auto_play_loop
    split <;> simp [LoopResult.calls] <;> omega
  | succ fuel ih =>
    intro st h
    unfold auto_play_loop
    split
    · cases hpt : play_turn agents shuffle st with
      | ok r =>
        obtain ⟨b, st'⟩ := r
        cases b
        · dsimp only
          simp [LoopResult.calls]
          omega
        · obtain ⟨h1, h2⟩ := play_turn_ok_true_turnCount hpt
          have hrec := ih st' (by omega)
          dsimp only
          cases hr : auto_play_loop agents shuffle fuel st' <;>
            rw [hr] at hrec <;> simp [LoopResult.calls] at hrec ⊢ <;> omega
      | error e =>
        obtain ⟨m, st'⟩ := e
        dsimp only
        split <;> simp [LoopResult.calls] <;> omega
    · simp [LoopResult.calls]
      omega

theorem auto_play_loop_no_fuelOut (agents : Nat → Agent) (shuffle : List Card → List Card) :
    ∀ (fuel : Nat) (st : EngineState),
      max_turns + 1 ≤ fuel + st.turnCount → 1 ≤ fuel →
      (auto_play_loop agents shuffle fuel st).isFuelOut = false := by
  intro fuel
  induction fuel with
  | zero =>
    intro st h h1
    omega
  | succ fuel ih =>
    intro st h h1
    unfold auto_play_loop
    split
    · cases hpt : play_turn agents shuffle st with
      | ok r =>
        obtain ⟨b, st'⟩ := r
        cases b
        · dsimp only
          simp [LoopResult.isFuelOut]
        · obtain ⟨h2, h3⟩ := play_turn_ok_true_turnCount hpt
          have hf : 1 ≤ fuel := by omega
          have hrec := ih st' (by omega) hf
          dsimp only
          cases hr : auto_play_loop agents shuffle fuel st' <;>
            rw [hr] at hrec <;> simp [LoopResult.isFuelOut] at hrec ⊢
      | error e =>
        obtain ⟨m, st'⟩ := e
        dsimp only
        split <;> simp [LoopResult.isFuelOut]
    · simp [LoopResult.isFuelOut]

theorem c4_step (t i : Nat) (h : t < max_turns) :
    play_turn (fun _ => pass_agent) id (c4_state t i) =
      .ok (true, c4_state (t + 1) ((i + 1) % 2)) := by
  unfold play_turn
  rw [if_neg (by simp only [c4_state]; omega)]
  rfl

theorem c4_loop_calls :
    ∀ (k t i : Nat), max_turns + 1 ≤ t + k → t ≤ max_turns →
      (auto_play_loop (fun _ => pass_agent) id k (c4_state t i)).calls =
        max_turns + 1 - t := by
  intro k
  induction k with
  | zero =>
    intro t i h1 h2
    omega
  | succ k ihk =>
    intro t i h1 h2
    by_cases ht : t = max_turns
    · subst ht
      unfold auto_play_loop
      rw [if_pos (by rfl)]
      rw [play_turn_ceiling (le_refl _)]
      simp [LoopResult.calls]
    · have hlt : t < max_turns := by omega
      unfold auto_play_loop
      rw [if_pos (by rfl)]
      rw [c4_step t i hlt]
      have hrec := ihk (t + 1) ((i + 1) % 2) (by omega) (by omega)
      dsimp only
      cases hr : auto_play_loop (fun _ => pass_agent) id k (c4_state (t + 1) ((i + 1) % 2)) <;>
        rw [hr] at hrec <;> simp [LoopResult.calls] at hrec ⊢ <;> omega

/-! ### Card conservation -/

theorem sum_lengths_set (hs : List (List Card)) (p : Nat) (h : List Card)
    (hp : p < hs.length) :
    ((hs.set p h).map List.length).sum + (hs.getD p []).length =
      (hs.map List.length).sum + h.length := by
  induction hs generalizing p with
  | nil => simp at hp
  | cons a as ih =>
    cases p with
    | zero =>
      simp only [List.set_cons_zero, List.map_cons, List.sum_cons, List.getD_cons_zero]
      omega
    | succ p =>
      have := ih p (by simpa using hp)
      simp only [List.set_cons_succ, List.map_cons, List.sum_cons, List.getD_cons_succ]
      omega

theorem totalCards_setHand (st : EngineState) (p : Nat) (h : List Card)
    (hp : p < st.hands.length) :
    totalCards (st.setHand p h) + (st.hand p).length = totalCards st + h.length := by
  have := sum_lengths_set st.hands p h hp
  simp only [totalCards, EngineState.setHand, EngineState.hand]
  omega

theorem reshuffle_ok_total {shuffle : List Card → List Card} {st st' : EngineState}
    (hsh : ∀ l, (shuffle l).length = l.length)
    (h : reshuffle_discard_pile shuffle st = .ok st') :
    totalCards st' = totalCards st ∧ st'.hands = st.hands := by
  obtain ⟨hlen, top, htop, rfl⟩ := reshuffle_ok_elim h
  constructor
  · simp only [totalCards, hsh, List.length_append, List.length_dropLast,
      List.length_cons, List.length_nil]
    omega
  · rfl

theorem draw_card_ok_total {shuffle : List Card → List Card} {st st' : EngineState}
    {p : Nat} {c : Card}
    (hsh : ∀ l, (shuffle l).length = l.length)
    (hp : p < st.hands.length)
    (h : draw_card shuffle st p = .ok (c, st')) :
    totalCards st' = totalCards st ∧ st'.hands.length = st.hands.length := by
  obtain ⟨stm, hm, rest, hdeck, rfl⟩ := draw_card_ok_elim h
  have hmfacts : totalCards stm = totalCards st ∧ stm.hands = st.hands := by
    rcases hm with rfl | hr
    · exact ⟨rfl, rfl⟩
    · exact reshuffle_ok_total hsh hr
  obtain ⟨hmt, hmh⟩ := hmfacts
  have hpm : p < stm.hands.length := by rw [hmh]; exact hp
  have hset := totalCards_setHand { stm with deck := rest } p (stm.hand p ++ [c]) hpm
  have hdl : stm.deck.length = rest.length + 1 := by rw [hdeck]; simp
  constructor
  · have h1 : totalCards { stm with deck := rest } + 1 = totalCards stm := by
      simp only [totalCards]
      omega
    have h2 : ({ stm with deck := rest } : EngineState).hand p = stm.hand p := rfl
    simp only [EngineState.setHand] at hset ⊢
    simp only [EngineState.hand] at hset h2 ⊢
    rw [List.length_append] at hset
    simp only [List.length_cons, List.length_nil] at hset
    omega
  · simp [EngineState.setHand, hmh]

theorem draw_card_error_total {shuffle : List Card → List Card} {st st' : EngineState}
    {p : Nat} {m : String}
    (hsh : ∀ l, (shuffle l).length = l.length)
    (h : draw_card shuffle st p = .error (m, st')) :
    totalCards st' = totalCards st ∧ st'.hands.length = st.hands.length := by
  rcases draw_card_error_elim h with rfl | rfl | hr
  · exact ⟨rfl, rfl⟩
  · exact ⟨rfl, rfl⟩
  · obtain ⟨ht, hh⟩ := reshuffle_ok_total hsh hr
    exact ⟨ht, by rw [hh]⟩

theorem play_card_apply_proj (st : EngineState) (p : Nat) (card : Card)
    (nc : Option CardColor) :
    (play_card_apply st p card nc).deck = st.deck ∧
    (play_card_apply st p card nc).discard = st.discard ++ [card] ∧
    (play_card_apply st p card nc).hands = st.hands.set p ((st.hand p).erase card) ∧
    (play_card_apply st p card nc).currentPlayerIndex = st.currentPlayerIndex ∧
    (play_card_apply st p card nc).clockwise = st.clockwise ∧
    (play_card_apply st p card nc).gameState = st.gameState := by
  unfold play_card_apply EngineState.setHand
  cases nc
  · dsimp only
    split <;> simp
  · simp

theorem play_card_apply_total {st : EngineState} {p : Nat} {card : Card}
    (nc : Option CardColor) (hmem : card ∈ st.hand p) :
    totalCards (play_card_apply st p card nc) = totalCards st ∧
    (play_card_apply st p card nc).hands.length = st.hands.length := by
  have hp := mem_hand_lt hmem
  obtain ⟨hd, hdis, hh, -, -, -⟩ := play_card_apply_proj st p card nc
  have hne : st.hand p ≠ [] := by
    intro he
    rw [he] at hmem
    simp at hmem
  have hlenpos : 1 ≤ (st.hand p).length := List.length_pos.mpr hne
  have herase : ((st.hand p).erase card).length = (st.hand p).length - 1 :=
    List.length_erase_of_mem hmem
  have hsum := sum_lengths_set st.hands p ((st.hand p).erase card) hp
  refine ⟨?_, by simp [hh]⟩
  simp only [totalCards, hd, hdis, hh, List.length_append, List.length_cons,
    List.length_nil]
  simp only [EngineState.hand] at hsum herase hlenpos ⊢
  omega

theorem after_action_snd_total (st : EngineState) :
    totalCards (after_action st).2 = totalCards st ∧
    (after_action st).2.hands.length = st.hands.length := by
  unfold after_action
  split
  · exact ⟨rfl, rfl⟩
  · exact ⟨rfl, rfl⟩


theorem totalCards_reverse (st : EngineState) :
    totalCards (reverse_direction st) = totalCards st := rfl

theorem totalCards_next_turn (st : EngineState) :
    totalCards (next_turn st) = totalCards st := rfl

theorem draw_card_ok_len {shuffle : List Card → List Card} {st st' : EngineState}
    {p : Nat} {c : Card}
    (h : draw_card shuffle st p = .ok (c, st')) :
    st'.hands.length = st.hands.length := by
  obtain ⟨stm, hm, rest, hdeck, rfl⟩ := draw_card_ok_elim h
  have hh : stm.hands = st.hands := by
    rcases hm with rfl | hr
    · rfl
    · obtain ⟨-, top, -, rfl⟩ := reshuffle_ok_elim hr
      rfl
  simp [EngineState.setHand, hh]

theorem play_card_apply_len (st : EngineState) (p : Nat) (card : Card)
    (nc : Option CardColor) :
    (play_card_apply st p card nc).hands.length = st.hands.length := by
  obtain ⟨-, -, hh, -, -, -⟩ := play_card_apply_proj st p card nc
  simp [hh]

theorem draw_branch_total {ag : Agent} {shuffle : List Card → List Card}
    {st1 : EngineState} {p : Nat}
    (hsh : ∀ l, (shuffle l).length = l.length)
    (hp : p < st1.hands.length) :
    totalCards (resState (draw_branch ag shuffle st1 p)) = totalCards st1 ∧
    (resState (draw_branch ag shuffle st1 p)).hands.length = st1.hands.length := by
  unfold draw_branch
  split
  next e heq =>
    cases e with
    | mk m s => exact draw_card_error_total hsh heq
  next drawn st2 heq =>
    obtain ⟨h2t, h2l⟩ := draw_card_ok_total hsh hp heq
    split
    · exact ⟨h2t, h2l⟩
    next top2 _ =>
      split
      · split
        next msg _ => exact ⟨h2t, h2l⟩
        next st3 heq3 =>
          obtain ⟨hmem, top, htop, hcan, rfl⟩ := play_card_ok_elim heq3
          constructor
          · show totalCards (after_action (play_card_apply st2 p drawn none)).2 = totalCards st1
            rw [(after_action_snd_total _).1, (play_card_apply_total none hmem).1, h2t]
          · show (after_action (play_card_apply st2 p drawn none)).2.hands.length = st1.hands.length
            rw [(after_action_snd_total _).2, (play_card_apply_total none hmem).2, h2l]
      · constructor
        · show totalCards (after_action st2).2 = totalCards st1
          rw [(after_action_snd_total _).1, h2t]
        · show (after_action st2).2.hands.length = st1.hands.length
          rw [(after_action_snd_total _).2, h2l]

theorem play_branch_total {shuffle : List Card → List Card}
    {st1 : EngineState} {p : Nat} {card : Card} {nc : Option CardColor}
    (hsh : ∀ l, (shuffle l).length = l.length)
    (hp : p < st1.hands.length) :
    totalCards (resState (play_branch shuffle st1 p card nc)) = totalCards st1 ∧
    (resState (play_branch shuffle st1 p card nc)).hands.length = st1.hands.length := by
  unfold play_branch
  split
  next st2 heq =>
    obtain ⟨hmem, top, htop, hcan, rfl⟩ := play_card_ok_elim heq
    obtain ⟨hpt, hpl⟩ := play_card_apply_total nc hmem
    split
    · constructor
      · show totalCards (after_action (reverse_direction (play_card_apply st1 p card nc))).2 = totalCards st1
        rw [(after_action_snd_total _).1, totalCards_reverse, hpt]
      · show (after_action (reverse_direction (play_card_apply st1 p card nc))).2.hands.length = st1.hands.length
        rw [(after_action_snd_total _).2]
        exact hpl
    · split
      · constructor
        · show totalCards (after_action (next_turn (play_card_apply st1 p card nc))).2 = totalCards st1
          rw [(after_action_snd_total _).1, totalCards_next_turn, hpt]
        · show (after_action (next_turn (play_card_apply st1 p card nc))).2.hands.length = st1.hands.length
          rw [(after_action_snd_total _).2]
          exact hpl
      · constructor
        · show totalCards (after_action (play_card_apply st1 p card nc)).2 = totalCards st1
          rw [(after_action_snd_total _).1, hpt]
        · show (after_action (play_card_apply st1 p card nc)).2.hands.length = st1.hands.length
          rw [(after_action_snd_total _).2, hpl]
  next e heq =>
    split
    next e2 heq2 =>
      exact ⟨rfl, rfl⟩
    next c2 st2 heq2 =>
      obtain ⟨h2t, h2l⟩ := draw_card_ok_total hsh hp heq2
      constructor
      · show totalCards (after_action st2).2 = totalCards st1
        rw [(after_action_snd_total _).1, h2t]
      · show (after_action st2).2.hands.length = st1.hands.length
        rw [(after_action_snd_total _).2, h2l]

theorem play_turn_inner_total {agents : Nat → Agent} {shuffle : List Card → List Card}
    {st1 : EngineState}
    (hsh : ∀ l, (shuffle l).length = l.length)
    (hp : st1.currentPlayerIndex < st1.hands.length) :
    totalCards (resState (play_turn_inner agents shuffle st1)) = totalCards st1 ∧
    (resState (play_turn_inner agents shuffle st1)).hands.length = st1.hands.length := by
  unfold play_turn_inner
  split
  · exact ⟨rfl, rfl⟩
  · dsimp only
    cases (agents st1.currentPlayerIndex).chooseAction st1 with
    | draw => exact draw_branch_total hsh hp
    | play card nc => exact play_branch_total hsh hp
    | pass =>
      exact ⟨(after_action_snd_total st1).1, (after_action_snd_total st1).2⟩

theorem play_turn_res_total {agents : Nat → Agent} {shuffle : List Card → List Card}
    {st : EngineState}
    (hsh : ∀ l, (shuffle l).length = l.length)
    (hp : st.currentPlayerIndex < st.hands.length) :
    totalCards (resState (play_turn agents shuffle st)) = totalCards st ∧
    (resState (play_turn agents shuffle st)).hands.length = st.hands.length := by
  unfold play_turn
  split
  · exact ⟨rfl, rfl⟩
  · have hin := @play_turn_inner_total agents shuffle
      { st with turnCount := st.turnCount + 1 } hsh hp
    cases hi : play_turn_inner agents shuffle { st with turnCount := st.turnCount + 1 } with
    | ok r =>
      rw [hi] at hin
      exact hin
    | error e =>
      rw [hi] at hin
      obtain ⟨m, s⟩ := e
      dsimp only
      split
      · exact hin
      · exact hin

theorem play_turn_ok_total {agents : Nat → Agent} {shuffle : List Card → List Card}
    {st st' : EngineState} {b : Bool}
    (hsh : ∀ l, (shuffle l).length = l.length)
    (hp : st.currentPlayerIndex < st.hands.length)
    (h : play_turn agents shuffle st = .ok (b, st')) :
    totalCards st' = totalCards st ∧ st'.hands.length = st.hands.length := by
  have := @play_turn_res_total agents shuffle st hsh hp
  rw [h] at this
  exact this

theorem play_turn_error_total {agents : Nat → Agent} {shuffle : List Card → List Card}
    {st st' : EngineState} {m : String}
    (hsh : ∀ l, (shuffle l).length = l.length)
    (hp : st.currentPlayerIndex < st.hands.length)
    (h : play_turn agents shuffle st = .error (m, st')) :
    totalCards st' = totalCards st := by
  have := @play_turn_res_total agents shuffle st hsh hp
  rw [h] at this
  exact this.1


theorem after_action_true_elim {s st' : EngineState}
    (h : after_action s = (true, st')) : st' = next_turn s := by
  rcases after_action_elim h with ⟨-, -, e⟩ | ⟨hb, -, -⟩
  · exact e
  · cases hb

theorem next_turn_idx_lt {st : EngineState} (h : 0 < st.hands.length) :
    (next_turn st).currentPlayerIndex < st.hands.length := by
  show _ % st.hands.length < st.hands.length
  exact Nat.mod_lt _ h

theorem draw_branch_ok_true_shape {ag : Agent} {shuffle : List Card → List Card}
    {st1 st' : EngineState} {p : Nat}
    (h : draw_branch ag shuffle st1 p = .ok (true, st')) :
    ∃ s, s.hands.length = st1.hands.length ∧ st' = next_turn s := by
  unfold draw_branch at h
  split at h
  · simp at h
  next drawn st2 heq =>
    have h2l : st2.hands.length = st1.hands.length := draw_card_ok_len heq
    split at h
    · simp at h
    next top2 _ =>
      split at h
      · split at h
        · simp at h
        next st3 heq3 =>
          obtain ⟨hmem, top, htop, hcan, rfl⟩ := play_card_ok_elim heq3
          injection h with h
          refine ⟨play_card_apply st2 p drawn none, ?_, after_action_true_elim h⟩
          rw [play_card_apply_len, h2l]
      · injection h with h
        exact ⟨st2, h2l, after_action_true_elim h⟩

theorem play_branch_ok_true_shape {shuffle : List Card → List Card}
    {st1 st' : EngineState} {p : Nat} {card : Card} {nc : Option CardColor}
    (h : play_branch shuffle st1 p card nc = .ok (true, st')) :
    ∃ s, s.hands.length = st1.hands.length ∧ st' = next_turn s := by
  unfold play_branch at h
  split at h
  next st2 heq =>
    obtain ⟨hmem, top, htop, hcan, rfl⟩ := play_card_ok_elim heq
    split at h
    · injection h with h
      exact ⟨reverse_direction (play_card_apply st1 p card nc),
        by rw [show (reverse_direction (play_card_apply st1 p card nc)).hands.length =
            (play_card_apply st1 p card nc).hands.length from rfl, play_card_apply_len],
        after_action_true_elim h⟩
    · split at h
      · injection h with h
        exact ⟨next_turn (play_card_apply st1 p card nc),
          by rw [show (next_turn (play_card_apply st1 p card nc)).hands.length =
              (play_card_apply st1 p card nc).hands.length from rfl, play_card_apply_len],
          after_action_true_elim h⟩
      · injection h with h
        exact ⟨play_card_apply st1 p card nc, play_card_apply_len _ _ _ _,
          after_action_true_elim h⟩
  next e heq =>
    split at h
    next e2 heq2 =>
      injection h with h
      injection h with h1 h2
      cases h1
    next c2 st2 heq2 =>
      injection h with h
      exact ⟨st2, draw_card_ok_len heq2, after_action_true_elim h⟩

theorem play_turn_inner_ok_true_shape {agents : Nat → Agent}
    {shuffle : List Card → List Card} {st1 st' : EngineState}
    (h : play_turn_inner agents shuffle st1 = .ok (true, st')) :
    ∃ s, s.hands.length = st1.hands.length ∧ st' = next_turn s := by
  unfold play_turn_inner at h
  split at h
  · simp at h
  · dsimp only at h
    split at h
    · exact draw_branch_ok_true_shape h
    · exact play_branch_ok_true_shape h
    · injection h with h
      exact ⟨st1, rfl, after_action_true_elim h⟩

theorem play_turn_ok_true_shape {agents : Nat → Agent}
    {shuffle : List Card → List Card} {st st' : EngineState}
    (h : play_turn agents shuffle st = .ok (true, st')) :
    ∃ s, s.hands.length = st.hands.length ∧ st' = next_turn s := by
  unfold play_turn at h
  split at h
  · injection h with h
    injection h with h1 h2
    cases h1
  · split at h
    next r heq =>
      injection h with h
      subst h
      exact @play_turn_inner_ok_true_shape agents shuffle
        { st with turnCount := st.turnCount + 1 } st' heq
    next m s heq =>
      split at h
      · injection h with h
        injection h with h1 h2
        cases h1
      · simp at h

theorem play_turn_ok_true_idx {agents : Nat → Agent}
    {shuffle : List Card → List Card} {st st' : EngineState}
    (hp : st.currentPlayerIndex < st.hands.length)
    (h : play_turn agents shuffle st = .ok (true, st')) :
    st'.currentPlayerIndex < st'.hands.length := by
  obtain ⟨s, hsl, rfl⟩ := play_turn_ok_true_shape h
  have h0 : 0 < s.hands.length := by omega
  have hlt := next_turn_idx_lt h0
  show (next_turn s).currentPlayerIndex < (next_turn s).hands.length
  exact hlt

theorem auto_play_loop_total (agents : Nat → Agent) (shuffle : List Card → List Card)
    (hsh : ∀ l, (shuffle l).length = l.length) :
    ∀ (fuel : Nat) (st : EngineState), st.currentPlayerIndex < st.hands.length →
      totalCards (auto_play_loop agents shuffle fuel st).state = totalCards st := by
  intro fuel
  induction fuel with
  | zero =>
    intro st hp
    unfold auto_play_loop
    split <;> simp [LoopResult.state]
  | succ fuel ih =>
    intro st hp
    unfold auto_play_loop
    split
    · cases hpt : play_turn agents shuffle st with
      | ok r =>
        obtain ⟨b, st'⟩ := r
        have htot := play_turn_ok_total hsh hp hpt
        cases b
        · dsimp only
          simp only [LoopResult.state]
          exact htot.1
        · have hidx := play_turn_ok_true_idx hp hpt
          have hrec := ih st' hidx
          dsimp only
          cases hr : auto_play_loop agents shuffle fuel st' <;>
            rw [hr] at hrec <;> simp only [LoopResult.state] at hrec ⊢ <;>
            rw [hrec] <;> exact htot.1
      | error e =>
        obtain ⟨m, s'⟩ := e
        have htot := play_turn_error_total hsh hp hpt
        dsimp only
        split
        · show totalCards (end_game_with_scores s') = totalCards st
          exact htot
        · exact htot
    · simp [LoopResult.state]


theorem getD_set_self {α : Type} (l : List α) (p : Nat) (v d : α)
    (hp : p < l.length) : (l.set p v).getD p d = v := by
  induction l generalizing p with
  | nil => simp at hp
  | cons a as ih =>
    cases p with
    | zero => rfl
    | succ p =>
      have hp' : p < as.length := by simpa using hp
      simpa using ih p hp'

theorem draw_card_ok_hand {shuffle : List Card → List Card} {st st' : EngineState}
    {p : Nat} {c : Card}
    (hp : p < st.hands.length)
    (h : draw_card shuffle st p = .ok (c, st')) :
    st'.hand p = st.hand p ++ [c] := by
  obtain ⟨stm, hm, rest, hdeck, rfl⟩ := draw_card_ok_elim h
  have hh : stm.hands = st.hands := by
    rcases hm with rfl | hr
    · rfl
    · obtain ⟨-, top, -, rfl⟩ := reshuffle_ok_elim hr
      rfl
  have hpm : p < stm.hands.length := by rw [hh]; exact hp
  show ((stm.hands.set p (stm.hand p ++ [c])).getD p []) = st.hand p ++ [c]
  rw [getD_set_self _ _ _ _ hpm]
  simp only [EngineState.hand, hh]


/-! ### Claim C2 -/

/-- C2: for every turn, if the current agent requests to play a card that
is not in its hand or is not legal on the current top discard card and
active color, the engine never aborts the game: `play_turn` returns
normally (no error from the illegal play propagates), the attempt is
recovered by forcing a draw for that agent in that turn (when the turn
continues, the agent's hand has grown by the one forced-drawn card), and
when even the forced draw is impossible the round ends by forced scoring
(`ROUND_OVER`) rather than by an exception. -/
theorem C2_illegal_play_forces_draw (agents : Nat → Agent)
    (shuffle : List Card → List Card) (st : EngineState) (card : Card)
    (nc : Option CardColor) (top : Card)
    (hp : st.currentPlayerIndex < st.hands.length)
    (htc : st.turnCount < max_turns)
    (hact : (agents st.currentPlayerIndex).chooseAction
      { st with turnCount := st.turnCount + 1 } = .play card nc)
    (htop : st.discard.getLast? = some top)
    (hill : card ∉ st.hand st.currentPlayerIndex ∨
      card.can_play_on top st.currentColor = false) :
    ∃ b st', play_turn agents shuffle st = .ok (b, st') ∧
      (b = true →
        (st'.hand st.currentPlayerIndex).length =
          (st.hand st.currentPlayerIndex).length + 1) ∧
      (b = false → st'.gameState = GameState.roundOver) := by
  unfold play_turn
  rw [if_neg (by omega)]
  unfold play_turn_inner
  dsimp only
  rw [htop, hact]
  dsimp only
  unfold play_branch
  obtain ⟨me, hpc⟩ := @play_card_error_of_illegal
    { st with turnCount := st.turnCount + 1 }
    st.currentPlayerIndex card nc top htop hill
  rw [hpc]
  dsimp only
  cases hd : draw_card shuffle { st with turnCount := st.turnCount + 1 }
      st.currentPlayerIndex with
  | error e =>
    obtain ⟨m, s⟩ := e
    dsimp only
    refine ⟨false, _, rfl, by simp, fun _ => rfl⟩
  | ok r =>
    obtain ⟨c, st2⟩ := r
    dsimp only
    have hhand : st2.hand st.currentPlayerIndex =
        st.hand st.currentPlayerIndex ++ [c] :=
      @draw_card_ok_hand shuffle { st with turnCount := st.turnCount + 1 }
        st2 st.currentPlayerIndex c hp hd
    cases haa : after_action st2 with
    | mk b s =>
      rcases after_action_elim haa with ⟨hb, -, rfl⟩ | ⟨hb, -, rfl⟩
      · subst hb
        refine ⟨true, next_turn st2, rfl, fun _ => ?_, by simp⟩
        show (st2.hand st.currentPlayerIndex).length = _
        rw [hhand]
        simp
      · subst hb
        exact ⟨false, _, rfl, by simp, fun _ => rfl⟩


theorem play_card_ok_of_legal {st : EngineState} {p : Nat} {card top : Card}
    {nc : Option CardColor}
    (hmem : card ∈ st.hand p)
    (htop : st.discard.getLast? = some top)
    (hcan : card.can_play_on top st.currentColor = true) :
    play_card st p card nc = .ok (play_card_apply st p card nc) := by
  unfold play_card
  rw [if_pos hmem, htop]
  dsimp only
  rw [if_pos hcan]

theorem getD_set_ne {α : Type} (l : List α) (p i : Nat) (v d : α)
    (h : i ≠ p) : (l.set p v).getD i d = l.getD i d := by
  induction l generalizing p i with
  | nil => simp
  | cons a as ih =>
    cases p with
    | zero =>
      cases i with
      | zero => exact absurd rfl h
      | succ i => rfl
    | succ p =>
      cases i with
      | zero => rfl
      | succ i => simpa using ih p i (by omega)

theorem findIdx_isEmpty_none {l : List (List Card)}
    (h : l.all (fun x => !x.isEmpty) = true) :
    l.findIdx? List.isEmpty = none := by
  rw [List.findIdx?_eq_none_iff]
  intro x hx
  have := List.all_eq_true.mp h x hx
  simpa using this

theorem play_card_apply_color (st : EngineState) (p : Nat) (card : Card)
    (nc : Option CardColor) :
    (play_card_apply st p card nc).currentColor =
      (match nc with
       | some c => some c
       | none =>
         if card.color ≠ CardColor.wild then some card.color
         else st.currentColor) := by
  cases nc
  · unfold play_card_apply
    dsimp only
    split <;> rfl
  · rfl


/-! ### Claim C10 -/

/-- C10: playing a DRAW_TWO or WILD_DRAW_FOUR card (held and legal)
changes only the playing agent's own hand — the played card moves to the
top of the discard pile — and the active color; every other player's
hand and the deck are left unchanged, the resulting state (which is the
complete game state, so nothing can impose a later forced draw of 2 or 4
cards from this play) records no pending draw, and the turn passes
exactly one seat in the current direction: the next player is not
skipped. -/
theorem C10_draw_two_and_wild_draw_four_have_no_draw_effect
    (agents : Nat → Agent) (shuffle : List Card → List Card)
    (st : EngineState) (card : Card) (nc : Option CardColor) (top : Card)
    (htc : st.turnCount < max_turns)
    (hact : (agents st.currentPlayerIndex).chooseAction
      { st with turnCount := st.turnCount + 1 } = .play card nc)
    (hlabel : card.label = CardLabel.drawTwo ∨ card.label = CardLabel.wildDrawFour)
    (hmem : card ∈ st.hand st.currentPlayerIndex)
    (htop : st.discard.getLast? = some top)
    (hcan : card.can_play_on top st.currentColor = true)
    (hnw : (st.hands.set st.currentPlayerIndex
        ((st.hand st.currentPlayerIndex).erase card)).all
          (fun h => !h.isEmpty) = true) :
    ∃ st', play_turn agents shuffle st = .ok (true, st') ∧
      (∀ i, i ≠ st.currentPlayerIndex → st'.hand i = st.hand i) ∧
      st'.hand st.currentPlayerIndex = (st.hand st.currentPlayerIndex).erase card ∧
      st'.deck = st.deck ∧
      st'.discard = st.discard ++ [card] ∧
      st'.clockwise = st.clockwise ∧
      st'.currentPlayerIndex =
        (if st.clockwise then st.currentPlayerIndex + 1
         else st.currentPlayerIndex + (st.hands.length - 1)) % st.hands.length ∧
      (∀ c, nc = some c → st'.currentColor = some c) ∧
      (nc = none →
        st'.currentColor =
          (if card.color ≠ CardColor.wild then some card.color
           else st.currentColor)) := by
  have hp : st.currentPlayerIndex < st.hands.length := mem_hand_lt hmem
  unfold play_turn
  rw [if_neg (by omega)]
  unfold play_turn_inner
  dsimp only
  rw [htop]
  dsimp only
  simp only [hact]
  unfold play_branch
  rw [@play_card_ok_of_legal { st with turnCount := st.turnCount + 1 }
    st.currentPlayerIndex card top nc hmem htop hcan]
  dsimp only
  have hr : card.label ≠ CardLabel.reverse := by
    rcases hlabel with h | h <;> simp [h]
  have hs : card.label ≠ CardLabel.skip := by
    rcases hlabel with h | h <;> simp [h]
  rw [if_neg hr, if_neg hs]
  obtain ⟨hdk, hdis, hh, hidx, hcl, hgs⟩ :=
    play_card_apply_proj { st with turnCount := st.turnCount + 1 }
      st.currentPlayerIndex card nc
  have hcw : check_winner
      (play_card_apply { st with turnCount := st.turnCount + 1 }
        st.currentPlayerIndex card nc) = none := by
    unfold check_winner
    rw [hh]
    exact findIdx_isEmpty_none hnw
  unfold after_action
  rw [hcw]
  dsimp only
  refine ⟨_, rfl, ?_, ?_, ?_, ?_, ?_, ?_, ?_, ?_⟩
  · intro i hi
    show ((play_card_apply _ _ card nc).hands.getD i []) = st.hand i
    rw [hh]
    exact getD_set_ne _ _ _ _ _ hi
  · show ((play_card_apply _ _ card nc).hands.getD st.currentPlayerIndex []) = _
    rw [hh]
    exact getD_set_self _ _ _ _ hp
  · exact hdk
  · exact hdis
  · exact hcl
  · show (if (play_card_apply { st with turnCount := st.turnCount + 1 }
        st.currentPlayerIndex card nc).clockwise = true then _ else _) %
      (play_card_apply { st with turnCount := st.turnCount + 1 }
        st.currentPlayerIndex card nc).hands.length = _
    rw [hcl, hidx, hh]
    rw [List.length_set]
  · intro c hnc
    subst hnc
    show (play_card_apply { st with turnCount := st.turnCount + 1 }
        st.currentPlayerIndex card (some c)).currentColor = some c
    rw [play_card_apply_color]
  · intro hnc
    subst hnc
    show (play_card_apply { st with turnCount := st.turnCount + 1 }
        st.currentPlayerIndex card none).currentColor = _
    rw [play_card_apply_color]


/-! ### Claim C5 -/

/-- C5: reshuffling the discard pile into the deck fails (raises) if and
only if the discard pile holds at most one card; when it succeeds, the
top discard card is never moved into the deck: afterwards the discard
pile contains exactly that top card and the new deck holds, up to the
shuffle permutation, the old deck plus every other former discard
card. -/
theorem C5_reshuffle_keeps_top (shuffle : List Card → List Card)
    (hsh : ∀ l, List.Perm (shuffle l) l) (st : EngineState) :
    ((∃ msg, reshuffle_discard_pile shuffle st = .error msg) ↔
      st.discard.length ≤ 1) ∧
    (∀ st', reshuffle_discard_pile shuffle st = .ok st' →
      ∃ top, st.discard.getLast? = some top ∧ st'.discard = [top] ∧
        List.Perm st'.deck (st.deck ++ st.discard.dropLast)) := by
  constructor
  · constructor
    · rintro ⟨msg, hmsg⟩
      by_contra hgt
      push_neg at hgt
      obtain ⟨st', hok⟩ := @reshuffle_ok_of_ge shuffle st (by omega)
      rw [hok] at hmsg
      simp at hmsg
    · intro hle
      exact ⟨_, reshuffle_error_of_le hle⟩
  · intro st' h
    obtain ⟨hlen, top, htop, rfl⟩ := reshuffle_ok_elim h
    exact ⟨top, htop, rfl, hsh _⟩

/-- Witness for C5 at a concrete state with a two-card discard pile and
the identity shuffle. -/
theorem C5_reshuffle_keeps_top_witness :
    ((∃ msg, reshuffle_discard_pile id c5_state = .error msg) ↔
      c5_state.discard.length ≤ 1) ∧
    (∀ st', reshuffle_discard_pile id c5_state = .ok st' →
      ∃ top, c5_state.discard.getLast? = some top ∧ st'.discard = [top] ∧
        List.Perm st'.deck (c5_state.deck ++ c5_state.discard.dropLast)) :=
  C5_reshuffle_keeps_top id (fun l => List.Perm.refl l) c5_state

/-! ### Claim C3 -/

/-- C3: card conservation — for any state, one `play_turn` step (whether
it returns normally or raises) preserves the total number of cards in
deck, hands and discard pile, and so does the whole `auto_play_game`
loop from that state: no engine operation creates or destroys a card.
The shuffle oracle is assumed length-preserving (`random.shuffle`
permutes in place). -/
theorem C3_card_conservation (agents : Nat → Agent)
    (shuffle : List Card → List Card)
    (hsh : ∀ l, (shuffle l).length = l.length) (st : EngineState)
    (hp : st.currentPlayerIndex < st.hands.length) :
    (∀ b st', play_turn agents shuffle st = .ok (b, st') →
      totalCards st' = totalCards st) ∧
    (∀ m st', play_turn agents shuffle st = .error (m, st') →
      totalCards st' = totalCards st) ∧
    (∀ fuel, totalCards (auto_play_loop agents shuffle fuel st).state =
      totalCards st) := by
  refine ⟨?_, ?_, ?_⟩
  · intro b st' h
    exact (play_turn_ok_total hsh hp h).1
  · intro m st' h
    exact play_turn_error_total hsh hp h
  · intro fuel
    exact auto_play_loop_total agents shuffle hsh fuel st hp

/-- Witness for C3 at a concrete two-player state with the identity
shuffle and agents that never act. -/
theorem C3_card_conservation_witness :
    (∀ b st', play_turn (fun _ => pass_agent) id c2_state = .ok (b, st') →
      totalCards st' = totalCards c2_state) ∧
    (∀ m st', play_turn (fun _ => pass_agent) id c2_state = .error (m, st') →
      totalCards st' = totalCards c2_state) ∧
    (∀ fuel, totalCards (auto_play_loop (fun _ => pass_agent) id fuel c2_state).state =
      totalCards c2_state) :=
  C3_card_conservation (fun _ => pass_agent) id (fun l => rfl) c2_state (by decide)

/-! ### Claim C4 -/

/-- C4 (amended): every game terminates: once the turn counter reaches
the 1000-turn ceiling, `play_turn` performs forced scoring, transitions
the game state to RoundOver and returns False, and the `auto_play_game`
loop always halts, executing `play_turn` at most 1001 times per game
(at most 1000 turn-advancing executions plus the one final
ceiling-triggered execution) — not at most 1000 as claimed. -/
theorem C4_turn_ceiling_halts (agents : Nat → Agent)
    (shuffle : List Card → List Card) (st : EngineState)
    (h0 : st.turnCount = 0) :
    (∀ st2 : EngineState, max_turns ≤ st2.turnCount →
      play_turn agents shuffle st2 = .ok (false, end_game_with_scores st2) ∧
      (end_game_with_scores st2).gameState = GameState.roundOver) ∧
    (∀ fuel, (auto_play_loop agents shuffle fuel st).calls ≤ max_turns + 1) ∧
    (auto_play_loop agents shuffle (max_turns + 1) st).isFuelOut = false := by
  refine ⟨fun st2 h2 => ⟨play_turn_ceiling h2, rfl⟩, fun fuel => ?_, ?_⟩
  · have := auto_play_loop_calls agents shuffle fuel st (by omega)
    omega
  · exact auto_play_loop_no_fuelOut agents shuffle (max_turns + 1) st
      (by omega) (by omega)

/-- Witness for C4 at a concrete two-player starting state. -/
theorem C4_turn_ceiling_halts_witness :
    (∀ st2 : EngineState, max_turns ≤ st2.turnCount →
      play_turn (fun _ => pass_agent) id st2 =
        .ok (false, end_game_with_scores st2) ∧
      (end_game_with_scores st2).gameState = GameState.roundOver) ∧
    (∀ fuel, (auto_play_loop (fun _ => pass_agent) id fuel (c4_state 0 0)).calls ≤
      max_turns + 1) ∧
    (auto_play_loop (fun _ => pass_agent) id (max_turns + 1)
      (c4_state 0 0)).isFuelOut = false :=
  C4_turn_ceiling_halts (fun _ => pass_agent) id (c4_state 0 0) rfl

/-- C4 counterexample: the claim's bound of at most 1000 `play_turn`
executions per game is violated — in this concrete two-player game whose
agents never act, the auto-play loop executes `play_turn` exactly 1001
times (1000 turn-advancing calls, then the ceiling call). -/
theorem C4_a_thousand_and_one_calls :
    ¬ ((auto_play_loop (fun _ => pass_agent) id (max_turns + 1)
      (c4_state 0 0)).calls ≤ 1000) := by
  rw [c4_loop_calls (max_turns + 1) 0 0 (by omega) (by omega)]
  simp [max_turns]

/-! ### Claim C1 -/

/-- C1 (code bug): in `c1_state` (a round ended by forced scoring) both
players tie on the lowest hand score (2 points) and player 1 holds fewer
cards (1 vs 2); the spec's fewest-cards tie-break — exactly the
computation performed and then discarded by `_end_game_with_scores` —
picks player 1 for every choice oracle, but `auto_play_game` returns
`winners[0]`, the first seated player of the tie: player 0. -/
theorem C1_tiebreak_discarded :
    auto_play_winner c1_state = some 0 ∧
    check_winner c1_state = none ∧
    calculate_hand_score (c1_state.hands.getD 0 []) =
      calculate_hand_score (c1_state.hands.getD 1 []) ∧
    (c1_state.hands.getD 1 []).length < (c1_state.hands.getD 0 []).length ∧
    (∀ choice, end_game_scored_winner c1_state.hands choice = some 1) :=
  ⟨by decide, by decide, by decide, by decide, fun choice => rfl⟩


/-- Witness for C2: in `c2_state` the agent plays the held but illegal
`blueSeven`; the turn degrades to a forced draw. -/
theorem C2_illegal_play_forces_draw_witness :
    ∃ b st', play_turn (fun _ => c2_agent) id c2_state = .ok (b, st') ∧
      (b = true →
        (st'.hand c2_state.currentPlayerIndex).length =
          (c2_state.hand c2_state.currentPlayerIndex).length + 1) ∧
      (b = false → st'.gameState = GameState.roundOver) :=
  C2_illegal_play_forces_draw (fun _ => c2_agent) id c2_state blueSeven none
    (redNum 5) (by decide) (by decide) rfl (by decide) (.inr (by decide))

/-- Witness for C10: in `c10_state` the agent legally plays a red
DRAW_TWO; the other hands, the deck and the turn order are untouched. -/
theorem C10_draw_two_witness :
    ∃ st', play_turn (fun _ => c10_agent) id c10_state = .ok (true, st') ∧
      (∀ i, i ≠ c10_state.currentPlayerIndex → st'.hand i = c10_state.hand i) ∧
      st'.hand c10_state.currentPlayerIndex =
        (c10_state.hand c10_state.currentPlayerIndex).erase redDrawTwo ∧
      st'.deck = c10_state.deck ∧
      st'.discard = c10_state.discard ++ [redDrawTwo] ∧
      st'.clockwise = c10_state.clockwise ∧
      st'.currentPlayerIndex =
        (if c10_state.clockwise then c10_state.currentPlayerIndex + 1
         else c10_state.currentPlayerIndex + (c10_state.hands.length - 1)) %
          c10_state.hands.length ∧
      (∀ c, (none : Option CardColor) = some c → st'.currentColor = some c) ∧
      ((none : Option CardColor) = none →
        st'.currentColor =
          (if redDrawTwo.color ≠ CardColor.wild then some redDrawTwo.color
           else c10_state.currentColor)) :=
  C10_draw_two_and_wild_draw_four_have_no_draw_effect (fun _ => c10_agent) id
    c10_state redDrawTwo none (redNum 5) (by decide) rfl (.inl rfl)
    (by decide) (by decide) (by decide) (by decide)


/-! ### Claim C6 -/

/-- C6: `run_match` declares the agent with strictly more game wins the
match winner; when the two win counts are equal a match winner is still
chosen by the `random.choice` coin (either agent, depending on the
coin), so every match yields exactly one declared winner, and the equal
outcome is recorded as a draw (`draws = 1`, `is_draw = true`). -/
theorem C6_run_match_winner (p1 p2 : String) (games : List GameResult)
    (coin : Bool) :
    (win_counts games p1 > win_counts games p2 →
      run_match p1 p2 games coin = ⟨p1, 0, false⟩) ∧
    (win_counts games p2 > win_counts games p1 →
      run_match p1 p2 games coin = ⟨p2, 0, false⟩) ∧
    (win_counts games p1 = win_counts games p2 →
      run_match p1 p2 games coin = ⟨if coin then p1 else p2, 1, true⟩) ∧
    ((run_match p1 p2 games coin).winner = p1 ∨
      (run_match p1 p2 games coin).winner = p2) := by
  unfold run_match
  dsimp only
  refine ⟨fun h => ?_, fun h => ?_, fun h => ?_, ?_⟩
  · rw [if_pos h]
    have hne : win_counts games p1 ≠ win_counts games p2 := by omega
    simp [hne]
  · rw [if_neg (by omega), if_pos h]
    have hne : win_counts games p1 ≠ win_counts games p2 := by omega
    simp [hne]
  · rw [if_neg (by omega), if_neg (by omega)]
    simp [h]
  · split
    · exact .inl rfl
    · split
      · exact .inr rfl
      · cases coin
        · exact .inr rfl
        · exact .inl rfl

/-- Witness for C6 at a concrete one-game batch won by player A. -/
theorem C6_run_match_winner_witness :
    (win_counts [GameResult.won "A"] "A" > win_counts [GameResult.won "A"] "B" →
      run_match "A" "B" [GameResult.won "A"] true = ⟨"A", 0, false⟩) ∧
    (win_counts [GameResult.won "A"] "B" > win_counts [GameResult.won "A"] "A" →
      run_match "A" "B" [GameResult.won "A"] true = ⟨"B", 0, false⟩) ∧
    (win_counts [GameResult.won "A"] "A" = win_counts [GameResult.won "A"] "B" →
      run_match "A" "B" [GameResult.won "A"] true =
        ⟨if true then "A" else "B", 1, true⟩) ∧
    ((run_match "A" "B" [GameResult.won "A"] true).winner = "A" ∨
      (run_match "A" "B" [GameResult.won "A"] true).winner = "B") :=
  C6_run_match_winner "A" "B" [GameResult.won "A"] true

/-! ### Claim C9 -/

/-- C9 counterexample: a batch of one game in which an agent threw: the
game is skipped by `continue` and nobody's win count changes — in
particular the non-offending opponent is not credited the game, so no
forfeit loss is recorded against the offender (the simulator keeps only
win counts, and they all stay 0). -/
theorem C9_no_forfeit_recorded :
    win_counts [GameResult.raised] "A" = 0 ∧
    win_counts [GameResult.raised] "B" = 0 :=
  ⟨rfl, rfl⟩

/-- C9 (amended): an agent exception in one game does not abort the
batch — but no forfeit is recorded either: the raised game is skipped
with no effect on any win count, and the remaining games of the batch
are processed exactly as if the raised game had not happened. -/
theorem C9_raised_game_skipped (pre post : List GameResult)
    (w : String → Nat) :
    run_simulation_wins (pre ++ GameResult.raised :: post) w =
      run_simulation_wins (pre ++ post) w := by
  induction pre generalizing w with
  | nil => rfl
  | cons g gs ih =>
    cases g <;> simp [run_simulation_wins, ih]


/-! ### Double elimination: two losses before elimination -/

theorem winBump_elim (t : TPStats) : (winBump t).eliminated = t.eliminated := rfl

theorem loseBump_elim (t : TPStats) : (loseBump t).eliminated = t.eliminated := rfl

theorem winBump_losses (t : TPStats) : (winBump t).losses = t.losses := rfl

theorem loseBump_losses (t : TPStats) : (loseBump t).losses = t.losses + 1 := rfl

theorem elimBump_losses (t : TPStats) : (elimBump t).losses = t.losses + 1 := rfl

theorem upd2_elim (s : Nat → TPStats) (w l q : Nat) :
    ((updStats (updStats s w winBump) l loseBump) q).eliminated =
      (s q).eliminated := by
  simp only [updStats]
  split <;> split <;> rfl

theorem upd2_losses_mono (s : Nat → TPStats) (w l q : Nat) :
    (s q).losses ≤ ((updStats (updStats s w winBump) l loseBump) q).losses := by
  simp only [updStats]
  split <;> split <;>
    (try simp only [loseBump_losses, winBump_losses]) <;> omega

theorem upd2_loser_ge_one (s : Nat → TPStats) (w l : Nat) :
    1 ≤ ((updStats (updStats s w winBump) l loseBump) l).losses := by
  simp only [updStats]
  simp only [if_true]
  rw [loseBump_losses]
  omega

theorem upd2e_elim_ne (s : Nat → TPStats) (w l q : Nat) (h : q ≠ l) :
    ((updStats (updStats s w winBump) l elimBump) q).eliminated =
      (s q).eliminated := by
  simp only [updStats, if_neg h]
  split <;> rfl

theorem upd2e_losses_mono (s : Nat → TPStats) (w l q : Nat) :
    (s q).losses ≤ ((updStats (updStats s w winBump) l elimBump) q).losses := by
  simp only [updStats]
  split <;> split <;>
    (try simp only [elimBump_losses, winBump_losses]) <;> omega

theorem upd2e_inv (s : Nat → TPStats) (w l : Nat)
    (hl : 1 ≤ (s l).losses) (hinv : ElimInv s) :
    ElimInv (updStats (updStats s w winBump) l elimBump) := by
  intro q hq
  by_cases hql : q = l
  · subst hql
    have : 2 ≤ ((updStats (updStats s w winBump) q elimBump) q).losses := by
      simp only [updStats]
      simp only [if_true]
      rw [elimBump_losses]
      split <;> (try simp only [winBump_losses]) <;> omega
    exact this
  · rw [upd2e_elim_ne s w l q hql] at hq
    calc 2 ≤ (s q).losses := hinv q hq
      _ ≤ _ := upd2e_losses_mono s w l q

theorem pairList_mem {α : Type} :
    ∀ (l : List α) (x y : α), (x, y) ∈ pairList l → x ∈ l ∧ y ∈ l
  | a :: b :: rest, x, y, h => by
    simp only [pairList, List.mem_cons] at h
    rcases h with h | h
    · obtain ⟨h1, h2⟩ := Prod.mk.injEq .. ▸ h
      subst h1
      subst h2
      exact ⟨List.mem_cons_self _ _, List.mem_cons_of_mem _ (List.mem_cons_self _ _)⟩
    · obtain ⟨hx, hy⟩ := pairList_mem rest x y h
      exact ⟨List.mem_cons_of_mem _ (List.mem_cons_of_mem _ hx),
        List.mem_cons_of_mem _ (List.mem_cons_of_mem _ hy)⟩
  | [], x, y, h => by simp [pairList] at h
  | [a], x, y, h => by simp [pairList] at h

theorem de_wround_facts (o : Nat → Bool) :
    ∀ (ps : List (Nat × Nat)) (s : Nat → TPStats) (k : Nat),
      (∀ q, ((de_wround o ps s k).2.2.1 q).eliminated = (s q).eliminated) ∧
      (∀ q, (s q).losses ≤ ((de_wround o ps s k).2.2.1 q).losses) ∧
      (∀ q ∈ (de_wround o ps s k).2.1, 1 ≤ ((de_wround o ps s k).2.2.1 q).losses) := by
  intro ps
  induction ps with
  | nil =>
    intro s k
    refine ⟨fun q => rfl, fun q => le_refl _, ?_⟩
    intro q hq
    simp [de_wround] at hq
  | cons pr rest ih =>
    obtain ⟨p1, p2⟩ := pr
    intro s k
    simp only [de_wround]
    obtain ⟨ih1, ih2, ih3⟩ :=
      ih (updStats (updStats s (if o k then p1 else p2) winBump)
        (if o k then p2 else p1) loseBump) (k + 1)
    refine ⟨?_, ?_, ?_⟩
    · intro q
      rw [ih1 q, upd2_elim]
    · intro q
      exact le_trans (upd2_losses_mono _ _ _ q) (ih2 q)
    · intro q hq
      rcases List.mem_cons.mp hq with rfl | hq
      · exact le_trans (upd2_loser_ge_one _ _ _) (ih2 _)
      · exact ih3 q hq

theorem de_round1_facts (bye o : Nat → Bool) :
    ∀ (ps : List (Nat × Nat)) (s : Nat → TPStats) (k : Nat),
      (∀ q, ((de_round1 bye o ps s k).2.2.1 q).eliminated = (s q).eliminated) ∧
      (∀ q, (s q).losses ≤ ((de_round1 bye o ps s k).2.2.1 q).losses) ∧
      (∀ q ∈ (de_round1 bye o ps s k).2.1,
        1 ≤ ((de_round1 bye o ps s k).2.2.1 q).losses) := by
  intro ps
  induction ps with
  | nil =>
    intro s k
    refine ⟨fun q => rfl, fun q => le_refl _, ?_⟩
    intro q hq
    simp [de_round1] at hq
  | cons pr rest ih =>
    obtain ⟨p1, p2⟩ := pr
    intro s k
    simp only [de_round1]
    split
    · obtain ⟨ih1, ih2, ih3⟩ :=
        ih (updStats (updStats s (if bye p1 then p2 else p1) winBump)
          (if bye p1 then p1 else p2) loseBump) k
      refine ⟨?_, ?_, ?_⟩
      · intro q
        rw [ih1 q, upd2_elim]
      · intro q
        exact le_trans (upd2_losses_mono _ _ _ q) (ih2 q)
      · intro q hq
        rcases List.mem_cons.mp hq with rfl | hq
        · exact le_trans (upd2_loser_ge_one _ _ _) (ih2 _)
        · exact ih3 q hq
    · obtain ⟨ih1, ih2, ih3⟩ :=
        ih (updStats (updStats s (if o k then p1 else p2) winBump)
          (if o k then p2 else p1) loseBump) (k + 1)
      refine ⟨?_, ?_, ?_⟩
      · intro q
        rw [ih1 q, upd2_elim]
      · intro q
        exact le_trans (upd2_losses_mono _ _ _ q) (ih2 q)
      · intro q hq
        rcases List.mem_cons.mp hq with rfl | hq
        · exact le_trans (upd2_loser_ge_one _ _ _) (ih2 _)
        · exact ih3 q hq

theorem de_lround_facts (o : Nat → Bool) :
    ∀ (ps : List (Nat × Nat)) (s : Nat → TPStats) (k : Nat),
      (∀ x y, (x, y) ∈ ps → 1 ≤ (s y).losses ∧ 1 ≤ (s x).losses) → ElimInv s →
      ElimInv ((de_lround o ps s k).2.1) ∧
      (∀ q, (s q).losses ≤ ((de_lround o ps s k).2.1 q).losses) ∧
      (∀ q ∈ (de_lround o ps s k).1, 1 ≤ ((de_lround o ps s k).2.1 q).losses) := by
  intro ps
  induction ps with
  | nil =>
    intro s k hin hinv
    refine ⟨hinv, fun q => le_refl _, ?_⟩
    intro q hq
    simp [de_lround] at hq
  | cons pr rest ih =>
    obtain ⟨p1, p2⟩ := pr
    intro s k hin hinv
    simp only [de_lround]
    have hhead := hin p1 p2 (List.mem_cons_self _ _)
    have hloser : 1 ≤ (s (if o k then p2 else p1)).losses := by
      split <;> [exact hhead.1; exact hhead.2]
    have hwinner : 1 ≤ (s (if o k then p1 else p2)).losses := by
      split <;> [exact hhead.2; exact hhead.1]
    have hinv1 : ElimInv (updStats (updStats s (if o k then p1 else p2) winBump)
        (if o k then p2 else p1) elimBump) :=
      upd2e_inv _ _ _ hloser hinv
    obtain ⟨ihinv, ihmono, ihwin⟩ :=
      ih (updStats (updStats s (if o k then p1 else p2) winBump)
        (if o k then p2 else p1) elimBump) (k + 1)
        (fun x y hxy =>
          ⟨le_trans (hin x y (List.mem_cons_of_mem _ hxy)).1 (upd2e_losses_mono _ _ _ y),
           le_trans (hin x y (List.mem_cons_of_mem _ hxy)).2 (upd2e_losses_mono _ _ _ x)⟩)
        hinv1
    refine ⟨ihinv, fun q => le_trans (upd2e_losses_mono _ _ _ q) (ihmono q), ?_⟩
    intro q hq
    rcases List.mem_cons.mp hq with rfl | hq
    · exact le_trans hwinner
        (le_trans (upd2e_losses_mono _ _ _ _) (ihmono _))
    · exact ihwin q hq


theorem elimInv_of_pres {s s' : Nat → TPStats}
    (helim : ∀ q, (s' q).eliminated = (s q).eliminated)
    (hmono : ∀ q, (s q).losses ≤ (s' q).losses)
    (hinv : ElimInv s) : ElimInv s' := by
  intro q hq
  rw [helim q] at hq
  exact le_trans (hinv q hq) (hmono q)

theorem de_loop_inv (o : Nat → Bool) :
    ∀ (fuel : Nat) (winners losers : List Nat) (s : Nat → TPStats) (k : Nat),
      ElimInv s → LosersOk losers s →
      ElimInv ((de_loop o fuel winners losers s k).2.2.1) ∧
      LosersOk ((de_loop o fuel winners losers s k).2.1)
        ((de_loop o fuel winners losers s k).2.2.1) := by
  intro fuel
  induction fuel with
  | zero =>
    intro winners losers s k hinv hlo
    exact ⟨hinv, hlo⟩
  | succ fuel ih =>
    intro winners losers s k hinv hlo
    unfold de_loop
    split
    · dsimp only
      by_cases hw : winners.length > 1
      · rw [if_pos hw]
        obtain ⟨a1, a2, a3⟩ := de_wround_facts o (pairList winners) s k
        have hinv1 : ElimInv (de_wround o (pairList winners) s k).2.2.1 :=
          elimInv_of_pres a1 a2 hinv
        have hlo1 : LosersOk (losers ++ (de_wround o (pairList winners) s k).2.1)
            (de_wround o (pairList winners) s k).2.2.1 := by
          intro q hq
          rcases List.mem_append.mp hq with hq | hq
          · exact le_trans (hlo q hq) (a2 q)
          · exact a3 q hq
        by_cases hl1 : (losers ++ (de_wround o (pairList winners) s k).2.1).length > 1
        · rw [if_pos hl1]
          obtain ⟨b1, b2, b3⟩ :=
            de_lround_facts o
              (pairList (losers ++ (de_wround o (pairList winners) s k).2.1))
              (de_wround o (pairList winners) s k).2.2.1
              (de_wround o (pairList winners) s k).2.2.2
              (fun x y hxy =>
                ⟨hlo1 y (pairList_mem _ x y hxy).2,
                 hlo1 x (pairList_mem _ x y hxy).1⟩)
              hinv1
          exact ih _ _ _ _ b1 b3
        · rw [if_neg hl1]
          exact ih _ _ _ _ hinv1 hlo1
      · rw [if_neg hw]
        have hlo1 : LosersOk (losers ++ ([] : List Nat)) s := by
          intro q hq
          exact hlo q (by simpa using hq)
        by_cases hl1 : (losers ++ ([] : List Nat)).length > 1
        · rw [if_pos hl1]
          obtain ⟨b1, b2, b3⟩ :=
            de_lround_facts o (pairList (losers ++ ([] : List Nat))) s k
              (fun x y hxy =>
                ⟨hlo1 y (pairList_mem _ x y hxy).2,
                 hlo1 x (pairList_mem _ x y hxy).1⟩)
              hinv
          exact ih _ _ _ _ b1 b3
        · rw [if_neg hl1]
          exact ih _ _ _ _ hinv hlo1
    · exact ⟨hinv, hlo⟩

theorem de_final_inv (o : Nat → Bool) (winners losers : List Nat)
    (s : Nat → TPStats) (k : Nat) (hinv : ElimInv s) :
    ElimInv (de_final o winners losers s k).2 := by
  unfold de_final
  split
  · split
    · exact elimInv_of_pres (fun q => upd2_elim ..) (fun q => upd2_losses_mono ..) hinv
    · split
      · refine elimInv_of_pres (fun q => ?_) (fun q => ?_) hinv
        · rw [upd2_elim, upd2_elim]
        · exact le_trans (upd2_losses_mono ..) (upd2_losses_mono ..)
      · refine elimInv_of_pres (fun q => ?_) (fun q => ?_) hinv
        · rw [upd2_elim, upd2_elim]
        · exact le_trans (upd2_losses_mono ..) (upd2_losses_mono ..)
  · exact hinv

theorem initialStats_elimInv : ElimInv initialStats := by
  intro q hq
  cases hq

/-! ### Claim C7 -/

/-- C7: in a double-elimination tournament a player's eliminated flag is
set only when that player has accumulated at least two recorded losses:
the winners-bracket rounds (round 1 with its byes included) record a
first loss and drop the loser to the losers bracket without touching any
eliminated flag, and only a losers-bracket loss — necessarily a second
loss, since every losers-bracket member already has one — sets it; so in
the final tallies of a run from fresh stats every eliminated player has
at least two losses. -/
theorem C7_eliminated_needs_two_losses (bye o : Nat → Bool) (fuel : Nat)
    (bracket : List Nat) (p : Nat)
    (h : ((run_double_elimination bye o fuel bracket).2 p).eliminated = true) :
    2 ≤ ((run_double_elimination bye o fuel bracket).2 p).losses ∧
    (∀ (ps : List (Nat × Nat)) (s : Nat → TPStats) (k : Nat) (q : Nat),
      ((de_wround o ps s k).2.2.1 q).eliminated = (s q).eliminated) ∧
    (∀ (ps : List (Nat × Nat)) (s : Nat → TPStats) (k : Nat) (q : Nat),
      ((de_round1 bye o ps s k).2.2.1 q).eliminated = (s q).eliminated) := by
  refine ⟨?_, fun ps s k q => (de_wround_facts o ps s k).1 q,
    fun ps s k q => (de_round1_facts bye o ps s k).1 q⟩
  obtain ⟨a1, a2, a3⟩ := de_round1_facts bye o (pairList bracket) initialStats 0
  have hinv1 : ElimInv (de_round1 bye o (pairList bracket) initialStats 0).2.2.1 :=
    elimInv_of_pres a1 a2 initialStats_elimInv
  obtain ⟨hinv2, hlo2⟩ :=
    de_loop_inv o fuel
      (de_round1 bye o (pairList bracket) initialStats 0).1
      (de_round1 bye o (pairList bracket) initialStats 0).2.1
      (de_round1 bye o (pairList bracket) initialStats 0).2.2.1
      (de_round1 bye o (pairList bracket) initialStats 0).2.2.2
      hinv1 a3
  unfold run_double_elimination at h ⊢
  dsimp only at h ⊢
  exact de_final_inv o _ _ _ _ hinv2 p h


/-- Witness for C7: a concrete four-player double elimination in which
player 3 loses in the winners bracket, drops down, loses again in the
losers bracket and is eliminated — with two recorded losses. -/
theorem C7_eliminated_needs_two_losses_witness :
    2 ≤ ((run_double_elimination (fun _ => false) (fun _ => true) 5
      [0, 1, 2, 3]).2 3).losses ∧
    (∀ (ps : List (Nat × Nat)) (s : Nat → TPStats) (k : Nat) (q : Nat),
      ((de_wround (fun _ => true) ps s k).2.2.1 q).eliminated =
        (s q).eliminated) ∧
    (∀ (ps : List (Nat × Nat)) (s : Nat → TPStats) (k : Nat) (q : Nat),
      ((de_round1 (fun _ => false) (fun _ => true) ps s k).2.2.1 q).eliminated =
        (s q).eliminated) :=
  C7_eliminated_needs_two_losses (fun _ => false) (fun _ => true) 5
    [0, 1, 2, 3] 3 (by decide)


/-! ### Swiss system: no rematches -/

theorem findOpponent_spec (opp : Nat → List Nat) (x : Nat) :
    ∀ (l : List Nat) (y : Nat), findOpponent opp x l = some y →
      y ∈ l ∧ metB opp x y = false := by
  intro l
  induction l with
  | nil => intro y h; simp [findOpponent] at h
  | cons a as ih =>
    intro y h
    unfold findOpponent at h
    split at h
    · obtain ⟨hy, hm⟩ := ih y h
      exact ⟨List.mem_cons_of_mem _ hy, hm⟩
    next hm =>
      injection h with h
      subst h
      exact ⟨List.mem_cons_self _ _, by simpa using hm⟩

theorem pair_components_mem_flat :
    ∀ (ps : List (Nat × Nat)) (pq : Nat × Nat), pq ∈ ps →
      pq.1 ∈ ps.flatMap (fun r => [r.1, r.2]) ∧
      pq.2 ∈ ps.flatMap (fun r => [r.1, r.2]) := by
  intro ps
  induction ps with
  | nil => intro pq h; simp at h
  | cons p rest ih =>
    intro pq h
    rcases List.mem_cons.mp h with rfl | h
    · constructor <;> simp
    · obtain ⟨h1, h2⟩ := ih pq h
      constructor <;>
        simp only [List.flatMap_cons, List.cons_append, List.nil_append,
          List.mem_cons] <;>
        [exact .inr (.inr h1); exact .inr (.inr h2)]

theorem pairPlayers_flat_nodup (opp : Nat → List Nat) :
    ∀ (n : Nat) (l : List Nat), l.length ≤ n → l.Nodup →
      ((pairPlayers opp l).flatMap fun pq => [pq.1, pq.2]).Nodup ∧
      (∀ q ∈ (pairPlayers opp l).flatMap fun pq => [pq.1, pq.2], q ∈ l) := by
  intro n
  induction n with
  | zero =>
    intro l hl hnd
    have : l = [] := List.length_eq_zero.mp (by omega)
    subst this
    simp [pairPlayers]
  | succ n ih =>
    intro l hl hnd
    cases l with
    | nil => simp [pairPlayers]
    | cons x rest =>
      rw [pairPlayers]
      cases hf : findOpponent opp x rest with
      | none =>
        obtain ⟨h1, h2⟩ := ih rest (by simpa using hl) (List.Nodup.of_cons hnd)
        exact ⟨h1, fun q hq => List.mem_cons_of_mem _ (h2 q hq)⟩
      | some y =>
        obtain ⟨hy, -⟩ := findOpponent_spec opp x rest y hf
        have hrest_nd : rest.Nodup := List.Nodup.of_cons hnd
        have herase_nd : (rest.erase y).Nodup := hrest_nd.erase y
        have herase_len : (rest.erase y).length ≤ n := by
          have hle : (rest.erase y).length ≤ rest.length :=
            (List.erase_sublist y rest).length_le
          simp only [List.length_cons] at hl
          omega
        obtain ⟨h1, h2⟩ := ih (rest.erase y) herase_len herase_nd
        have hsub : ∀ q ∈ (pairPlayers opp (rest.erase y)).flatMap
            (fun pq => [pq.1, pq.2]), q ∈ rest :=
          fun q hq => (List.erase_sublist y rest).mem (h2 q hq)
        have hx_notin : x ∉ rest := (List.nodup_cons.mp hnd).1
        constructor
        · simp only [List.flatMap_cons, List.cons_append, List.nil_append]
          rw [List.nodup_cons]
          refine ⟨?_, ?_⟩
          · intro hx
            rcases List.mem_cons.mp hx with rfl | hx
            · exact hx_notin hy
            · exact hx_notin (hsub _ hx)
          · rw [List.nodup_cons]
            refine ⟨?_, h1⟩
            intro hyF
            have hmem : y ∈ rest.erase y := h2 _ hyF
            rw [List.Nodup.mem_erase_iff hrest_nd] at hmem
            exact hmem.1 rfl
        · intro q hq
          simp only [List.flatMap_cons, List.cons_append, List.nil_append] at hq
          rcases List.mem_cons.mp hq with rfl | hq
          · exact List.mem_cons_self _ _
          · rcases List.mem_cons.mp hq with rfl | hq
            · exact List.mem_cons_of_mem _ hy
            · exact List.mem_cons_of_mem _ (hsub _ hq)


theorem pairPlayers_unmet (opp : Nat → List Nat) :
    ∀ (n : Nat) (l : List Nat), l.length ≤ n →
      ∀ x y, (x, y) ∈ pairPlayers opp l → metB opp x y = false := by
  intro n
  induction n with
  | zero =>
    intro l hl x y h
    have : l = [] := List.length_eq_zero.mp (by omega)
    subst this
    simp [pairPlayers] at h
  | succ n ih =>
    intro l hl x y h
    cases l with
    | nil => simp [pairPlayers] at h
    | cons a rest =>
      rw [pairPlayers] at h
      cases hf : findOpponent opp a rest with
      | none =>
        rw [hf] at h
        exact ih rest (by simpa using hl) x y h
      | some b =>
        rw [hf] at h
        rcases List.mem_cons.mp h with heq | h
        · obtain ⟨h1, h2⟩ := Prod.mk.injEq .. ▸ heq
          subst h1
          subst h2
          exact (findOpponent_spec opp x rest y hf).2
        · have herase_len : (rest.erase b).length ≤ n := by
            have hle : (rest.erase b).length ≤ rest.length :=
              (List.erase_sublist b rest).length_le
            simp only [List.length_cons] at hl
            omega
          exact ih (rest.erase b) herase_len x y h

theorem pairs_pairwise_of_flat_nodup :
    ∀ (ps : List (Nat × Nat)),
      (ps.flatMap fun pq => [pq.1, pq.2]).Nodup →
      ps.Pairwise (fun p q => ¬ samePair p q) := by
  intro ps
  induction ps with
  | nil => intro h; exact List.Pairwise.nil
  | cons p rest ih =>
    intro h
    simp only [List.flatMap_cons, List.cons_append, List.nil_append,
      List.nodup_cons] at h
    obtain ⟨hp1, hp2, hF⟩ := h
    refine List.Pairwise.cons ?_ (ih hF)
    intro q hq hsame
    obtain ⟨hq1, hq2⟩ := pair_components_mem_flat rest q hq
    rcases hsame with ⟨e1, e2⟩ | ⟨e1, e2⟩
    · exact hp1 (List.mem_cons_of_mem _ (e1 ▸ hq1))
    · exact hp2 (e1 ▸ hq1)

theorem add_opponent_subset (opp : Nat → List Nat) (x y i : Nat) :
    opp i ⊆ add_opponent opp x y i := by
  unfold add_opponent
  split
  next hix =>
    subst hix
    split
    · exact fun a ha => ha
    · exact fun a ha => List.mem_append_left _ ha
  · exact fun a ha => ha

theorem recordPairs_subset (opp : Nat → List Nat) :
    ∀ (ps : List (Nat × Nat)) (i : Nat), opp i ⊆ recordPairs opp ps i := by
  intro ps
  induction ps generalizing opp with
  | nil => intro i a ha; exact ha
  | cons pr rest ih =>
    obtain ⟨x, y⟩ := pr
    intro i a ha
    exact ih (add_opponent (add_opponent opp x y) y x) i
      (add_opponent_subset _ y x i (add_opponent_subset _ x y i ha))

theorem metB_mono {opp opp' : Nat → List Nat}
    (hsub : ∀ i, opp i ⊆ opp' i) {x y : Nat}
    (h : metB opp x y = true) : metB opp' x y = true := by
  unfold metB at h ⊢
  rcases Bool.or_eq_true .. ▸ h with h | h
  · exact Bool.or_eq_true .. ▸ .inl (by
      simp only [decide_eq_true_eq] at h ⊢
      exact hsub x h)
  · exact Bool.or_eq_true .. ▸ .inr (by
      simp only [decide_eq_true_eq] at h ⊢
      exact hsub y h)

theorem add_opponent_mem (opp : Nat → List Nat) (x y : Nat) :
    y ∈ add_opponent opp x y x := by
  unfold add_opponent
  rw [if_pos rfl]
  split
  · assumption
  · exact List.mem_append_right _ (List.mem_cons_self _ _)

theorem recordPairs_met (opp : Nat → List Nat) :
    ∀ (ps : List (Nat × Nat)) (x y : Nat), (x, y) ∈ ps →
      metB (recordPairs opp ps) x y = true := by
  intro ps
  induction ps generalizing opp with
  | nil => intro x y h; simp at h
  | cons pr rest ih =>
    obtain ⟨a, b⟩ := pr
    intro x y h
    rcases List.mem_cons.mp h with heq | h
    · obtain ⟨h1, h2⟩ := Prod.mk.injEq .. ▸ heq
      subst h1
      subst h2
      have hmem : y ∈ add_opponent (add_opponent opp x y) y x x :=
        add_opponent_subset _ y x x (add_opponent_mem opp x y)
      have hmem' : y ∈ recordPairs (add_opponent (add_opponent opp x y) y x) rest x :=
        recordPairs_subset _ rest x hmem
      rw [recordPairs]
      unfold metB
      simp [hmem']
    · exact ih _ x y h

theorem metB_samePair {opp : Nat → List Nat} {p q : Nat × Nat}
    (h : samePair p q) : metB opp q.1 q.2 = metB opp p.1 p.2 := by
  rcases h with ⟨e1, e2⟩ | ⟨e1, e2⟩
  · rw [e1, e2]
  · rw [e1, e2]
    unfold metB
    exact Bool.or_comm ..

theorem swiss_rounds_length (ord : Nat → List Nat) :
    ∀ (n : Nat) (opp : Nat → List Nat) (r : Nat),
      (swiss_rounds ord n opp r).length = n := by
  intro n
  induction n with
  | zero => intro opp r; rfl
  | succ n ih =>
    intro opp r
    simp only [swiss_rounds, List.length_cons, ih]

theorem swiss_rounds_inv (ord : Nat → List Nat)
    (hnd : ∀ k, (ord k).Nodup) :
    ∀ (n : Nat) (opp : Nat → List Nat) (r : Nat),
      ((swiss_rounds ord n opp r).flatten.Pairwise (fun p q => ¬ samePair p q)) ∧
      (∀ pq ∈ (swiss_rounds ord n opp r).flatten, metB opp pq.1 pq.2 = false) := by
  intro n
  induction n with
  | zero =>
    intro opp r
    constructor
    · exact List.Pairwise.nil
    · intro pq h
      simp [swiss_rounds] at h
  | succ n ih =>
    intro opp r
    obtain ⟨ihP, ihM⟩ := ih (recordPairs opp (pairPlayers opp (ord r))) (r + 1)
    simp only [swiss_rounds, List.flatten_cons]
    have hflat := pairPlayers_flat_nodup opp (ord r).length (ord r)
      (le_refl _) (hnd r)
    constructor
    · rw [List.pairwise_append]
      refine ⟨pairs_pairwise_of_flat_nodup _ hflat.1, ihP, ?_⟩
      intro p hp q hq hsame
      have hmet : metB (recordPairs opp (pairPlayers opp (ord r))) p.1 p.2 = true :=
        recordPairs_met opp _ p.1 p.2 (by simpa using hp)
      have hunmet := ihM q hq
      rw [metB_samePair hsame] at hunmet
      rw [hmet] at hunmet
      cases hunmet
    · intro pq hpq
      rcases List.mem_append.mp hpq with hpq | hpq
      · exact pairPlayers_unmet opp (ord r).length (ord r) (le_refl _)
          pq.1 pq.2 (by simpa using hpq)
      · have hrec := ihM pq hpq
        cases hcur : metB opp pq.1 pq.2 with
        | false => rfl
        | true =>
          have hup := metB_mono
            (fun i => recordPairs_subset opp (pairPlayers opp (ord r)) i) hcur
          rw [hup] at hrec
          cases hrec


/-! ### Claim C8 -/

/-- C8: a Swiss tournament plays exactly min(5, playerCount) rounds, and
no unordered pair of players is paired against each other more than once
across all rounds: every pairing of a round avoids all previously
recorded opponents, the opponents of each pairing are recorded after its
match, and within a round the greedy pairing uses each player at most
once.  The per-round sorted order is an oracle constrained only to be a
permutation of the players, which subsumes the match-score-plus-random
sort of the code; the no-rematch property needs no parity assumption. -/
theorem C8_swiss_rounds_and_no_rematches (players : List Nat)
    (ord : Nat → List Nat) (hnd : players.Nodup)
    (hperm : ∀ r, (ord r).Perm players) :
    (run_swiss ord players).length = min 5 players.length ∧
    (run_swiss ord players).flatten.Pairwise (fun p q => ¬ samePair p q) := by
  constructor
  · exact swiss_rounds_length ord _ _ _
  · have hn : ∀ k, (ord k).Nodup := fun k => ((hperm k).nodup_iff).mpr hnd
    exact (swiss_rounds_inv ord hn _ _ _).1

/-- Witness for C8 at four players with a constant ordering oracle. -/
theorem C8_swiss_rounds_and_no_rematches_witness :
    (run_swiss (fun _ => [0, 1, 2, 3]) [0, 1, 2, 3]).length =
      min 5 ([0, 1, 2, 3] : List Nat).length ∧
    (run_swiss (fun _ => [0, 1, 2, 3]) [0, 1, 2, 3]).flatten.Pairwise
      (fun p q => ¬ samePair p q) :=
  C8_swiss_rounds_and_no_rematches [0, 1, 2, 3] (fun _ => [0, 1, 2, 3])
    (by decide) (fun r => List.Perm.refl _)

end Uno
